import Mathlib

/-
Formal model of the schema-driven data generator (generator.py): field-level
value synthesis, per-kind row generation, dependency resolution between
schemas, and the main generation pipeline.

Randomness is modelled by explicit deterministic streams carried in the run
state.  The program draws from three independent sources, which the model
keeps separate because they are separate in the code:
  * `rng`     — the `random` module (randint / random / choice), the only
                source a caller can seed;
  * `entropy` — operating-system entropy used by `uuid.uuid4()`;
  * `faker`   — the `Faker` instance's private generator (dates/timestamps).
Mutable module-level state (`DATA`, `AUTO_INC`, `SEQ_COUNTER`) is carried in
the same state record.  Python dictionaries are modelled as association lists
with insertion-order-preserving update, matching dict semantics.
-/

namespace DG

/-- Scalar cell values occurring in generated rows. -/
inductive Value where
  | null : Value
  | int : Int → Value
  | str : String → Value
deriving DecidableEq, Repr

/-- A generated row: field name to value, in insertion order (Python dict). -/
abbrev Row := List (String × Value)

/-- First-match association-list lookup (Python `d[k]` / `d.get(k)`). -/
def alookup {α : Type} : List (String × α) → String → Option α
  | [], _ => none
  | (k, v) :: rest, key => if k = key then some v else alookup rest key

/-- Keys of an association list, in insertion order (Python `d.keys()`). -/
def akeys {α : Type} (l : List (String × α)) : List String := l.map Prod.fst

/-- Python `d[k] = v`: update in place if the key exists, else append. -/
def aupsert {α : Type} : List (String × α) → String → α → List (String × α)
  | [], k, v => [(k, v)]
  | (k', v') :: rest, k, v =>
    if k' = k then (k, v) :: rest else (k', v') :: aupsert rest k v

/-- Python `{**a, **b}`: entries of `b` written over `a` in order. -/
def pyMerge {α : Type} (a b : List (String × α)) : List (String × α) :=
  b.foldl (fun acc p => aupsert acc p.1 p.2) a

/-- Field definition: the optional keys a field's YAML mapping may carry. -/
structure FieldDef where
  type : Option String := none
  nullable : Bool := false
  default : Option Value := none
  min : Option Int := none
  max : Option Int := none
  table : Option String := none
  field : Option String := none
  pattern : Option String := none
  value : Option Value := none
deriving DecidableEq, Repr

/-- Table schema: `table_name` and `type` are read unconditionally by the
code; every other attribute is read only on demand and may be absent. -/
structure Schema where
  table_name : String
  type : String
  records : Option (List Row) := none
  fields : Option (List (String × FieldDef)) := none
  count : Option Nat := none
  parent : Option String := none
  count_per_parent : Option String := none
  version_range : Option String := none
  source_table : Option String := none
  key : Option (List String) := none
  latest_field : Option String := none
deriving DecidableEq, Repr

/-- The mutable state of one generation run: the three random sources with
their positions, the module-level counters and the dataset store, plus the
wall-clock date formatter used by `code` patterns. -/
structure RunState where
  rng : Nat → Nat
  rngIdx : Nat := 0
  entropy : Nat → Nat
  entIdx : Nat := 0
  faker : Nat → Nat
  fakIdx : Nat := 0
  autoInc : List (String × Nat) := []
  seqCounter : List (String × Nat) := []
  data : List (String × List Row) := []
  todayFmt : String → String

/-- Draw the next value from the seedable `random`-module stream. -/
def nextRng (rs : RunState) : Nat × RunState :=
  (rs.rng rs.rngIdx, { rs with rngIdx := rs.rngIdx + 1 })

/-- Draw the next value from OS entropy (`uuid.uuid4`). -/
def nextEntropy (rs : RunState) : Nat × RunState :=
  (rs.entropy rs.entIdx, { rs with entIdx := rs.entIdx + 1 })

/-- Draw the next value from the Faker instance's private generator. -/
def nextFaker (rs : RunState) : Nat × RunState :=
  (rs.faker rs.fakIdx, { rs with fakIdx := rs.fakIdx + 1 })

/-- Model of the test `random.random() < 0.1`: a probability-1/10 event as a
function of the stream draw. -/
def pyRandomLt01 (d : Nat) : Bool := d % 10 == 0

/-- Model of `random.randint(lo, hi)`: uniform on `[lo, hi]`; raises
`ValueError` when the range is empty. -/
def pyRandint (rs : RunState) (lo hi : Int) : Except String (Int × RunState) :=
  if hi < lo then Except.error "ValueError: empty range for randrange"
  else
    let (d, rs') := nextRng rs
    Except.ok (lo + ((d % (hi - lo + 1).toNat : Nat) : Int), rs')

/-- Model of `random.choice(l)`: raises on an empty sequence. -/
def pyChoice {α : Type} (rs : RunState) (l : List α) : Except String (α × RunState) :=
  match l with
  | [] => Except.error "IndexError: cannot choose from an empty sequence"
  | a :: as =>
    let (d, rs') := nextRng rs
    Except.ok ((a :: as).getD (d % (a :: as).length) a, rs')

/-- Model of `str(uuid.uuid4())` as an injective rendering of one OS-entropy
draw. -/
def uuidFromNat (n : Nat) : String := "uuid-" ++ toString n

/-- Model of `fake.date_between(...).isoformat()` as a rendering of one draw
from Faker's generator. -/
def fakeDateFromNat (n : Nat) : String := "fakedate-" ++ toString n

/-- Model of `fake.date_time_between(...).strftime(...)` as a rendering of one
draw from Faker's generator. -/
def fakeDateTimeFromNat (n : Nat) : String := "faketime-" ++ toString n

/-- Python `str.zfill`: left-pad with zeros to the requested width. -/
def zfill (w : Nat) (s : String) : String :=
  if s.data.length < w then String.mk (List.replicate (w - s.data.length) '0') ++ s else s

/-- Does the second character list begin with the first? -/
def listBeginsWith : List Char → List Char → Bool
  | [], _ => true
  | _ :: _, [] => false
  | p :: ps, c :: cs => p = c && listBeginsWith ps cs

/-- Python `s.startswith(pre)`. -/
def strBeginsWith (s pre : String) : Bool := listBeginsWith pre.data s.data

/-- Worker for `strSplitChar`: accumulate the current segment (reversed). -/
def splitCharAux (sep : Char) : List Char → List Char → List String
  | cur, [] => [String.mk cur.reverse]
  | cur, c :: rest =>
    if c = sep then String.mk cur.reverse :: splitCharAux sep [] rest
    else splitCharAux sep (c :: cur) rest

/-- Python `s.split(sep)` for a one-character separator: every occurrence
splits, adjacent separators produce empty segments, the result is never
empty. -/
def strSplitChar (sep : Char) (s : String) : List String :=
  splitCharAux sep [] s.data

/-- Digit value of a character, if it is a decimal digit. -/
def digitVal (c : Char) : Option Nat :=
  if '0' ≤ c ∧ c ≤ '9' then some (c.toNat - 48) else none

/-- Parse a nonempty all-digit character list as a natural number. -/
def natFromDigits : List Char → Option Nat
  | [] => none
  | cs => go cs 0
where
  go : List Char → Nat → Option Nat
    | [], acc => some acc
    | c :: rest, acc =>
      match digitVal c with
      | some d => go rest (acc * 10 + d)
      | none => none

/-- Python `int(s)` on a plain decimal literal with optional leading minus. -/
def strToIntM (s : String) : Option Int :=
  match s.data with
  | '-' :: rest => (natFromDigits rest).map (fun n => -(n : Int))
  | cs => (natFromDigits cs).map (fun n => (n : Int))

/-- Scan up to the first `'}'`, returning the token text before it and the
remaining characters after it (the lazy body of the regex `\x7b(.*?)\x7d`). -/
def extractToken : List Char → Option (String × List Char)
  | [] => none
  | c :: rest =>
    if c = '}' then some ("", rest)
    else
      match extractToken rest with
      | some (t, r) => some (String.mk [c] ++ t, r)
      | none => none

theorem extractToken_length :
    ∀ (cs : List Char) (t : String) (r : List Char),
      extractToken cs = some (t, r) → r.length < cs.length := by
  intro cs
  induction cs with
  | nil => intro t r h; simp [extractToken] at h
  | cons c rest ih =>
    intro t r h
    by_cases hc : c = '}'
    · simp only [extractToken, hc, if_pos rfl] at h
      cases h
      simp
    · simp only [extractToken, if_neg hc] at h
      cases hrec : extractToken rest with
      | none => rw [hrec] at h; cases h
      | some p =>
        rw [hrec] at h
        obtain ⟨t', r'⟩ := p
        simp only [Option.some.injEq, Prod.mk.injEq] at h
        obtain ⟨-, hr⟩ := h
        have hlen := ih t' r' hrec
        rw [← hr]
        simpa using Nat.lt_succ_of_lt hlen

/-- Substitution of one `\x7btoken\x7d` occurrence, mirroring the `replace`
closure in `generate_value`: `date:` uses the wall clock, `seq:` bumps the
counter keyed by the whole literal pattern string, `alpha` draws a random
uppercase letter, anything else becomes an `<UNKNOWN:...>` literal. -/
def applyToken (rs : RunState) (pat tok : String) : Except String (String × RunState) :=
  if strBeginsWith tok "date:" then
    Except.ok (rs.todayFmt (String.mk (tok.data.drop 5)), rs)
  else if strBeginsWith tok "seq:" then
    match (strSplitChar ':' tok)[1]? with
    | some wstr =>
      match strToIntM wstr with
      | some w =>
        let c := (alookup rs.seqCounter pat).getD 0 + 1
        Except.ok (zfill w.toNat (toString c),
          { rs with seqCounter := aupsert rs.seqCounter pat c })
      | none => Except.error "ValueError: invalid literal for int"
    | none => Except.error "IndexError: list index out of range"
  else if tok = "alpha" then
    let (d, rs') := nextRng rs
    Except.ok (String.mk ["ABCDEFGHIJKLMNOPQRSTUVWXYZ".data.getD (d % 26) 'A'], rs')
  else Except.ok ("<UNKNOWN:" ++ tok ++ ">", rs)

/-- Model of `re.sub` over the pattern with the lazy token regex: literals are
copied, tokens are substituted left to right; an unmatched `'\x7b'` with no
later `'\x7d'` is kept literally. -/
def pyReSubTokens (pat : String) (cs : List Char) (rs : RunState) :
    Except String (String × RunState) :=
  match cs with
  | [] => Except.ok ("", rs)
  | c :: rest =>
    if c = '{' then
      match h : extractToken rest with
      | some (tok, rest') =>
        match applyToken rs pat tok with
        | Except.error e => Except.error e
        | Except.ok (s, rs') =>
          match pyReSubTokens pat rest' rs' with
          | Except.error e => Except.error e
          | Except.ok (tail, rs'') => Except.ok (s ++ tail, rs'')
      | none => Except.ok (String.mk (c :: rest), rs)
    else
      match pyReSubTokens pat rest rs with
      | Except.error e => Except.error e
      | Except.ok (tail, rs') => Except.ok (String.mk [c] ++ tail, rs')
termination_by cs.length
decreasing_by
  · simp only [List.length_cons]
    exact Nat.lt_succ_of_lt (extractToken_length rest tok rest' h)
  · simp

/-- The type-dispatch part of `generate_value` (everything after the nullable
draw): the `default` short-circuit followed by the `type` dispatch.  An
unrecognized or missing `type` yields `None`. -/
def generate_value_core (rs : RunState) (field_name : String) (fdef : FieldDef)
    (context : Row) : Except String (Value × RunState) :=
  if fdef.default.isSome then Except.ok (fdef.default.getD Value.null, rs)
  else
    match fdef.type with
    | some "uuid" =>
      let (e, rs') := nextEntropy rs
      Except.ok (Value.str (uuidFromNat e), rs')
    | some "const" => Except.ok (fdef.value.getD Value.null, rs)
    | some "int" =>
      match pyRandint rs (fdef.min.getD 0) (fdef.max.getD 100) with
      | Except.error e => Except.error e
      | Except.ok (n, rs') => Except.ok (Value.int n, rs')
    | some "date" =>
      let (d, rs') := nextFaker rs
      Except.ok (Value.str (fakeDateFromNat d), rs')
    | some "timestamp" =>
      let (d, rs') := nextFaker rs
      Except.ok (Value.str (fakeDateTimeFromNat d), rs')
    | some "ref" =>
      match fdef.table with
      | none => Except.error "KeyError: table"
      | some ref_table =>
        match fdef.field with
        | none => Except.error "KeyError: field"
        | some ref_field =>
          match alookup rs.data ref_table with
          | none => Except.error "KeyError: ref table not yet generated"
          | some rows =>
            match pyChoice rs rows with
            | Except.error e => Except.error e
            | Except.ok (row, rs') =>
              match alookup row ref_field with
              | some v => Except.ok (v, rs')
              | none => Except.error "KeyError: ref field"
    | some "code" =>
      let pat := fdef.pattern.getD "CODE-{seq:6}"
      match pyReSubTokens pat pat.data rs with
      | Except.error e => Except.error e
      | Except.ok (s, rs') => Except.ok (Value.str s, rs')
    | some "version_sequence" =>
      Except.ok ((alookup context "__version__").getD (Value.int 1), rs)
    | some "auto_increment" =>
      let c := (alookup rs.autoInc field_name).getD 0 + 1
      Except.ok (Value.int c, { rs with autoInc := aupsert rs.autoInc field_name c })
    | _ => Except.ok (Value.null, rs)

/-- Embedding of `generate_value`: the nullable 10%-null draw happens first
(and consumes a `random` draw only when `nullable` is set), then the core
dispatch. -/
def generate_value (rs : RunState) (field_name : String) (fdef : FieldDef)
    (context : Row) : Except String (Value × RunState) :=
  if fdef.nullable then
    let (d, rs') := nextRng rs
    if pyRandomLt01 d then Except.ok (Value.null, rs')
    else generate_value_core rs' field_name fdef context
  else generate_value_core rs field_name fdef context

/-! Row-generation loops of `generate_rows`, one definition per Python loop. -/

/-- Inner loop of the `master` branch: synthesize the fields in declaration
order, with the partially built row as context. -/
def buildRowMaster : List (String × FieldDef) → RunState → Row →
    Except String (Row × RunState)
  | [], rs, row => Except.ok (row, rs)
  | (name, fd) :: rest, rs, row =>
    match generate_value rs name fd row with
    | Except.error e => Except.error e
    | Except.ok (v, rs') => buildRowMaster rest rs' (aupsert row name v)

/-- Outer loop of the `master` branch: `count` independent rows. -/
def masterLoop (fields : List (String × FieldDef)) :
    Nat → RunState → List Row → Except String (List Row × RunState)
  | 0, rs, rows => Except.ok (rows, rs)
  | k + 1, rs, rows =>
    match buildRowMaster fields rs [] with
    | Except.error e => Except.error e
    | Except.ok (row, rs') => masterLoop fields k rs' (rows ++ [row])

/-- Inner loop of the parent-less `transactional` branch (textually identical
to the `master` inner loop in the code). -/
def buildRowTrans : List (String × FieldDef) → RunState → Row →
    Except String (Row × RunState)
  | [], rs, row => Except.ok (row, rs)
  | (name, fd) :: rest, rs, row =>
    match generate_value rs name fd row with
    | Except.error e => Except.error e
    | Except.ok (v, rs') => buildRowTrans rest rs' (aupsert row name v)

/-- Outer loop of the parent-less `transactional` branch. -/
def transLoop (fields : List (String × FieldDef)) :
    Nat → RunState → List Row → Except String (List Row × RunState)
  | 0, rs, rows => Except.ok (rows, rs)
  | k + 1, rs, rows =>
    match buildRowTrans fields rs [] with
    | Except.error e => Except.error e
    | Except.ok (row, rs') => transLoop fields k rs' (rows ++ [row])

/-- One child row of the parented branch: a `ref` into the parent table whose
target field exists on the parent row is copied deterministically, a
`version_sequence` field copies the parent's `version` (default 1), all other
fields synthesize with context = child row merged with parent row. -/
def buildRowParent (parent_table : String) (parent : Row) :
    List (String × FieldDef) → RunState → Row → Except String (Row × RunState)
  | [], rs, row => Except.ok (row, rs)
  | (name, fd) :: rest, rs, row =>
    let ctx := pyMerge row parent
    if fd.type = some "ref" then
      match fd.table with
      | none => Except.error "KeyError: table"
      | some t =>
        if t = parent_table then
          match fd.field with
          | none => Except.error "KeyError: field"
          | some fl =>
            match alookup parent fl with
            | some pv => buildRowParent parent_table parent rest rs (aupsert row name pv)
            | none =>
              match generate_value rs name fd ctx with
              | Except.error e => Except.error e
              | Except.ok (v, rs') =>
                buildRowParent parent_table parent rest rs' (aupsert row name v)
        else
          match generate_value rs name fd ctx with
          | Except.error e => Except.error e
          | Except.ok (v, rs') =>
            buildRowParent parent_table parent rest rs' (aupsert row name v)
    else if fd.type = some "version_sequence" then
      buildRowParent parent_table parent rest rs
        (aupsert row name ((alookup parent "version").getD (Value.int 1)))
    else
      match generate_value rs name fd ctx with
      | Except.error e => Except.error e
      | Except.ok (v, rs') =>
        buildRowParent parent_table parent rest rs' (aupsert row name v)

/-- The per-parent inner row loop of the parented branch. -/
def parentRowsLoop (parent_table : String) (parent : Row)
    (fields : List (String × FieldDef)) :
    Nat → RunState → List Row → Except String (List Row × RunState)
  | 0, rs, rows => Except.ok (rows, rs)
  | k + 1, rs, rows =>
    match buildRowParent parent_table parent fields rs [] with
    | Except.error e => Except.error e
    | Except.ok (row, rs') => parentRowsLoop parent_table parent fields k rs' (rows ++ [row])

/-- The outer loop of the parented branch: for each parent row, clear the
whole `AUTO_INC` table, draw the per-parent child count, generate. -/
def parentsLoop (parent_table : String) (fields : List (String × FieldDef))
    (minc maxc : Int) :
    List Row → RunState → List Row → Except String (List Row × RunState)
  | [], rs, rows => Except.ok (rows, rs)
  | parent :: rest, rs, rows =>
    let rs0 := { rs with autoInc := [] }
    match pyRandint rs0 minc maxc with
    | Except.error e => Except.error e
    | Except.ok (k, rs1) =>
      match parentRowsLoop parent_table parent fields k.toNat rs1 rows with
      | Except.error e => Except.error e
      | Except.ok (rows', rs2) => parentsLoop parent_table fields minc maxc rest rs2 rows'

/-- Base row of one immutable entity: every non-`version_sequence` field
synthesized once, each with an empty context (the dict comprehension passes
`context=\x7b\x7d`). -/
def buildBaseRow : List (String × FieldDef) → RunState → Row →
    Except String (Row × RunState)
  | [], rs, row => Except.ok (row, rs)
  | (name, fd) :: rest, rs, row =>
    if fd.type = some "version_sequence" then buildBaseRow rest rs row
    else
      match generate_value rs name fd [] with
      | Except.error e => Except.error e
      | Except.ok (v, rs') => buildBaseRow rest rs' (aupsert row name v)

/-- Re-synthesize only the `version_sequence` fields over a copy of the base
row, sharing one version context. -/
def applyVersionFields (ctx : Row) : List (String × FieldDef) → RunState → Row →
    Except String (Row × RunState)
  | [], rs, row => Except.ok (row, rs)
  | (name, fd) :: rest, rs, row =>
    if fd.type = some "version_sequence" then
      match generate_value rs name fd ctx with
      | Except.error e => Except.error e
      | Except.ok (v, rs') => applyVersionFields ctx rest rs' (aupsert row name v)
    else applyVersionFields ctx rest rs row

/-- The `for v in range(1, versions + 1)` loop of one immutable entity. -/
def versionLoop (fields : List (String × FieldDef)) (base : Row) :
    Nat → Nat → RunState → List Row → Except String (List Row × RunState)
  | _, 0, rs, rows => Except.ok (rows, rs)
  | v, rem + 1, rs, rows =>
    let ctx := pyMerge [("__version__", Value.int (v : Int))] base
    match applyVersionFields ctx fields rs base with
    | Except.error e => Except.error e
    | Except.ok (row, rs') => versionLoop fields base (v + 1) rem rs' (rows ++ [row])

/-- Outer loop of the parent-less `immutable` branch: `count` entities, each
a base row followed by a random number of version rows. -/
def immutableLoop (fields : List (String × FieldDef)) (minv maxv : Int) :
    Nat → RunState → List Row → Except String (List Row × RunState)
  | 0, rs, rows => Except.ok (rows, rs)
  | k + 1, rs, rows =>
    match buildBaseRow fields rs [] with
    | Except.error e => Except.error e
    | Except.ok (base, rs1) =>
      match pyRandint rs1 minv maxv with
      | Except.error e => Except.error e
      | Except.ok (n, rs2) =>
        match versionLoop fields base 1 n.toNat rs2 rows with
        | Except.error e => Except.error e
        | Except.ok (rows', rs3) => immutableLoop fields minv maxv k rs3 rows'

/-- The grouping key of a source row: the tuple of its values at the `key`
fields; a missing key field raises `KeyError`. -/
def rowKeyE : List String → Row → Except String (List Value)
  | [], _ => Except.ok []
  | k :: ks, r =>
    match alookup r k with
    | none => Except.error "KeyError: key field"
    | some v =>
      match rowKeyE ks r with
      | Except.error e => Except.error e
      | Except.ok vs => Except.ok (v :: vs)

/-- Append `x` if not already present (insertion-ordered set insert). -/
def addUniq {α : Type} [DecidableEq α] (l : List α) (x : α) : List α :=
  if x ∈ l then l else l ++ [x]

/-- Append a row to its key group, creating a new group at the end on first
sight of the key (`defaultdict(list)` with dict insertion order). -/
def addToGroup : List (List Value × List Row) → List Value → Row →
    List (List Value × List Row)
  | [], k, r => [(k, [r])]
  | (k', rows) :: rest, k, r =>
    if k' = k then (k', rows ++ [r]) :: rest else (k', rows) :: addToGroup rest k r

/-- The grouping loop of the `pointer` branch. -/
def groupByKeysE (ks : List String) : List Row → List (List Value × List Row) →
    Except String (List (List Value × List Row))
  | [], acc => Except.ok acc
  | r :: rest, acc =>
    match rowKeyE ks r with
    | Except.error e => Except.error e
    | Except.ok k => groupByKeysE ks rest (addToGroup acc k r)

/-- Pair each row of one group with its `latest_field` value (the sort-key
extraction of `sorted(..., key=...)`); a missing field raises `KeyError`. -/
def keyedVersionsE (lf : String) : List Row → Except String (List (Value × Row))
  | [] => Except.ok []
  | r :: rest =>
    match alookup r lf with
    | none => Except.error "KeyError: latest_field"
    | some v =>
      match keyedVersionsE lf rest with
      | Except.error e => Except.error e
      | Except.ok ps => Except.ok ((v, r) :: ps)

/-- The strict order Python's comparison induces on homogeneous scalars (the
cross-constructor cases are given a fixed arbitrary order; Python only ever
compares values of one type here). -/
def valueLt : Value → Value → Bool
  | Value.int a, Value.int b => a < b
  | Value.str a, Value.str b => a < b
  | Value.null, Value.null => false
  | Value.null, _ => true
  | _, Value.null => false
  | Value.int _, Value.str _ => true
  | Value.str _, Value.int _ => false

/-- Stable descending insertion: the new element passes every element that is
not strictly smaller, so equal keys keep their original relative order. -/
def insDesc (p : Value × Row) : List (Value × Row) → List (Value × Row)
  | [] => [p]
  | q :: qs => if valueLt q.1 p.1 then p :: q :: qs else q :: insDesc p qs

/-- Model of `sorted(l, key=..., reverse=True)`: a stable descending sort of
the key-decorated list. -/
def pySortDesc (l : List (Value × Row)) : List (Value × Row) :=
  l.foldl (fun acc p => insDesc p acc) []

/-- The emission loop of the `pointer` branch: per group, sort its rows by
`latest_field` descending (stably) and emit a copy of the first. -/
def pointerLoop (lf : String) : List (List Value × List Row) →
    Except String (List Row)
  | [] => Except.ok []
  | (_, versions) :: rest =>
    match keyedVersionsE lf versions with
    | Except.error e => Except.error e
    | Except.ok keyed =>
      match pySortDesc keyed with
      | [] => Except.error "IndexError: list index out of range"
      | top :: _ =>
        match pointerLoop lf rest with
        | Except.error e => Except.error e
        | Except.ok tail => Except.ok (top.2 :: tail)

/-- `schema["count"]`: raises `KeyError` when absent. -/
def getCountE (schema : Schema) : Except String Nat :=
  match schema.count with
  | some c => Except.ok c
  | none => Except.error "KeyError: count"

/-- Python `int(s)`. -/
def parseIntE (s : String) : Except String Int :=
  match strToIntM s with
  | some i => Except.ok i
  | none => Except.error "ValueError: invalid literal for int"

/-- Parse an `"a~b"` or `"a"` range string the way both range-consuming
branches do: split on `"~"`, `int` of the first part, `int` of the last part
when there are at least two parts, else the first bound again. -/
def rangeBoundsE (rangeStr : String) : Except String (Int × Int) :=
  let parts := strSplitChar '~' rangeStr
  match parseIntE (parts.headD "") with
  | Except.error e => Except.error e
  | Except.ok lo =>
    if parts.length > 1 then
      match parseIntE (parts.getLastD "") with
      | Except.error e => Except.error e
      | Except.ok hi => Except.ok (lo, hi)
    else Except.ok (lo, lo)

/-- Embedding of `generate_rows`: a literal `records` list bypasses
generation; otherwise the five-way `elif` chain on the kind tag (with the
parented branch taking priority for `immutable`/`transactional`), falling
through to an empty row list for unrecognized kinds. -/
def generate_rows (rs : RunState) (schema : Schema) :
    Except String (List Row × RunState) :=
  match schema.records with
  | some recs => Except.ok (recs, rs)
  | none =>
    match (if schema.type = "pointer" then Except.ok (schema.fields.getD [])
           else
             match schema.fields with
             | some fs => Except.ok fs
             | none => Except.error "KeyError: fields") with
    | Except.error e => Except.error e
    | Except.ok fields =>
      if schema.type = "master" then
        match getCountE schema with
        | Except.error e => Except.error e
        | Except.ok cnt => masterLoop fields cnt rs []
      else if (schema.type = "immutable" ∨ schema.type = "transactional")
          ∧ schema.parent.isSome then
        match schema.parent with
        | none => Except.error "KeyError: parent"
        | some ptable =>
          match alookup rs.data ptable with
          | none => Except.error "KeyError: parent table not generated"
          | some parents =>
            match rangeBoundsE (schema.count_per_parent.getD "1") with
            | Except.error e => Except.error e
            | Except.ok (minc, maxc) => parentsLoop ptable fields minc maxc parents rs []
      else if schema.type = "immutable" then
        match rangeBoundsE (schema.version_range.getD "1") with
        | Except.error e => Except.error e
        | Except.ok (minv, maxv) =>
          match getCountE schema with
          | Except.error e => Except.error e
          | Except.ok cnt => immutableLoop fields minv maxv cnt rs []
      else if schema.type = "transactional" then
        match getCountE schema with
        | Except.error e => Except.error e
        | Except.ok cnt => transLoop fields cnt rs []
      else if schema.type = "pointer" then
        match schema.source_table with
        | none => Except.error "KeyError: source_table"
        | some stn =>
          match schema.key with
          | none => Except.error "KeyError: key"
          | some ks =>
            match schema.latest_field with
            | none => Except.error "KeyError: latest_field"
            | some lf =>
              match alookup rs.data stn with
              | none => Except.error "KeyError: source table not generated"
              | some src =>
                match groupByKeysE ks src [] with
                | Except.error e => Except.error e
                | Except.ok groups =>
                  match pointerLoop lf groups with
                  | Except.error e => Except.error e
                  | Except.ok out => Except.ok (out, rs)
      else Except.ok ([], rs)

/-! Dependency resolution. -/

/-- The dependency names one schema contributes to the graph, in scan order
(`ref` field targets in declaration order, then `parent`, then a pointer's
`source_table`), deduplicated as the Python `set` is. -/
def collectDepsE (schema : Schema) : Except String (List String) :=
  match (schema.fields.getD []).foldl
      (fun (acc : Except String (List String)) p =>
        match acc with
        | Except.error e => Except.error e
        | Except.ok l =>
          if p.2.type = some "ref" then
            match p.2.table with
            | some t => Except.ok (addUniq l t)
            | none => Except.error "KeyError: table"
          else Except.ok l)
      (Except.ok []) with
  | Except.error e => Except.error e
  | Except.ok base =>
    let base := match schema.parent with
      | some p => addUniq base p
      | none => base
    if schema.type = "pointer" then
      match schema.source_table with
      | some st => Except.ok (addUniq base st)
      | none => Except.error "KeyError: source_table"
    else Except.ok base

/-- Add a batch of dependency names under `n`, preserving already-recorded
ones (`graph[name].add(...)` on a `defaultdict(set)`). -/
def graphAddDeps (g : List (String × List String)) (n : String)
    (ds : List String) : List (String × List String) :=
  aupsert g n (ds.foldl addUniq ((alookup g n).getD []))

/-- The graph-and-schema-index construction loop of `resolve_dependencies`. -/
def buildResolve : List Schema →
    (List (String × List String) × List (String × Schema)) →
    Except String (List (String × List String) × List (String × Schema))
  | [], acc => Except.ok acc
  | schema :: rest, (g, n2s) =>
    match collectDepsE schema with
    | Except.error e => Except.error e
    | Except.ok ds =>
      buildResolve rest
        (graphAddDeps g schema.table_name ds, aupsert n2s schema.table_name schema)

/-- State of the depth-first traversal: completed names in completion order,
and the schemas emitted so far. -/
structure VisitState where
  visitedL : List String
  sorted : List Schema
deriving DecidableEq, Repr

/-- Result of a traversal step: success, a raised error, or exhaustion of the
recursion budget (Python's `RecursionError`). -/
inductive VRes where
  | fuelout : VRes
  | fail : String → VRes
  | ok : VisitState → VRes
deriving DecidableEq, Repr

/-- The `for dep in graph.get(n, []): visit(dep)` loop; an error or exhausted
budget aborts the loop. -/
def foldVisit (vf : VisitState → String → VRes) : VRes → List String → VRes
  | r, [] => r
  | VRes.ok st, d :: ds => foldVisit vf (vf st d) ds
  | r, _ :: _ => r

/-- Embedding of the recursive `visit`: return if already completed, else
visit all dependencies, then mark completed and emit the schema.  The
recursion budget models Python's call stack; the code has no in-progress
marking, so nothing stops a cyclic graph from descending forever. -/
def visit (g : List (String × List String)) (n2s : List (String × Schema)) :
    Nat → VisitState → String → VRes
  | 0, _, _ => VRes.fuelout
  | fuel + 1, st, n =>
    if st.visitedL.contains n then VRes.ok st
    else
      match foldVisit (fun st' d => visit g n2s fuel st' d) (VRes.ok st)
          ((alookup g n).getD []) with
      | VRes.ok st2 =>
        match alookup n2s n with
        | some sch => VRes.ok ⟨st2.visitedL ++ [n], st2.sorted ++ [sch]⟩
        | none => VRes.fail "KeyError: unknown table"
      | r => r

/-- Embedding of `resolve_dependencies`: build the graph and name index, then
run `visit` over every table name in index order.  Each top-level call gets a
recursion budget of one more than the number of schemas, which a depth-first
descent over an acyclic graph can never exhaust. -/
def resolve_dependencies (schemas : List Schema) : Except String (List Schema) :=
  match buildResolve schemas ([], []) with
  | Except.error e => Except.error e
  | Except.ok (g, n2s) =>
    match (akeys n2s).foldl
        (fun acc n =>
          match acc with
          | VRes.ok st => visit g n2s (schemas.length + 1) st n
          | r => r)
        (VRes.ok ⟨[], []⟩) with
    | VRes.ok st => Except.ok st.sorted
    | VRes.fail e => Except.error e
    | VRes.fuelout => Except.error "RecursionError: maximum recursion depth exceeded"

/-! The main pipeline. -/

/-- The generation loop of `main` over the resolved schema order: generate,
store under the table name, and record an output file exactly when the row
list is nonempty. -/
def runSchemas : List Schema → RunState → List (String × List Row) →
    Except String (List (String × List Row) × RunState)
  | [], rs, outs => Except.ok (outs, rs)
  | sch :: rest, rs, outs =>
    match generate_rows rs sch with
    | Except.error e => Except.error e
    | Except.ok (rows, rs') =>
      runSchemas rest { rs' with data := aupsert rs'.data sch.table_name rows }
        (if rows.isEmpty then outs else outs ++ [(sch.table_name, rows)])

/-- Embedding of `main` (minus file I/O): resolve, then generate in order.
The result is the list of written output files with their rows. -/
def mainRun (schemas : List Schema) (rs : RunState) :
    Except String (List (String × List Row) × RunState) :=
  match resolve_dependencies schemas with
  | Except.error e => Except.error e
  | Except.ok ordered => runSchemas ordered rs []

/-! Basic association-list lemmas. -/

theorem alookup_aupsert_self {α : Type} (l : List (String × α)) (k : String) (v : α) :
    alookup (aupsert l k v) k = some v := by
  induction l with
  | nil => simp [aupsert, alookup]
  | cons p rest ih =>
    obtain ⟨k', v'⟩ := p
    by_cases h : k' = k
    · simp [aupsert, alookup, h]
    · simp [aupsert, alookup, h, ih]

theorem alookup_aupsert_ne {α : Type} (l : List (String × α)) (k key : String) (v : α)
    (h : k ≠ key) : alookup (aupsert l k v) key = alookup l key := by
  induction l with
  | nil => simp [aupsert, alookup, h]
  | cons p rest ih =>
    obtain ⟨k', v'⟩ := p
    by_cases h' : k' = k
    · subst h'
      simp [aupsert, alookup, h]
    · simp [aupsert, alookup, h', ih]

theorem akeys_cons {α : Type} (k : String) (v : α) (rest : List (String × α)) :
    akeys ((k, v) :: rest) = k :: akeys rest := rfl

theorem mem_akeys_cons_elim {α : Type} {k k' : String} {v' : α}
    {rest : List (String × α)} (h : k ∈ akeys ((k', v') :: rest)) (hne : k' ≠ k) :
    k ∈ akeys rest := by
  rw [akeys_cons] at h
  rcases List.mem_cons.mp h with h | h
  · exact absurd h.symm hne
  · exact h

theorem not_mem_akeys_cons_head {α : Type} {k k' : String} {v' : α}
    {rest : List (String × α)} (h : k ∉ akeys ((k', v') :: rest)) : k' ≠ k := by
  intro hk
  apply h
  rw [akeys_cons, hk]
  exact List.mem_cons_self _ _

theorem not_mem_akeys_cons_tail {α : Type} {k k' : String} {v' : α}
    {rest : List (String × α)} (h : k ∉ akeys ((k', v') :: rest)) : k ∉ akeys rest := by
  intro hk
  apply h
  rw [akeys_cons]
  exact List.mem_cons_of_mem _ hk

theorem akeys_aupsert_mem {α : Type} (l : List (String × α)) (k : String) (v : α)
    (h : k ∈ akeys l) : akeys (aupsert l k v) = akeys l := by
  induction l with
  | nil => simp [akeys] at h
  | cons p rest ih =>
    obtain ⟨k', v'⟩ := p
    by_cases h' : k' = k
    · rw [show aupsert ((k', v') :: rest) k v = (k, v) :: rest from by simp [aupsert, h'],
        akeys_cons, akeys_cons, h']
    · rw [show aupsert ((k', v') :: rest) k v = (k', v') :: aupsert rest k v from by
          simp [aupsert, h'],
        akeys_cons, akeys_cons, ih (mem_akeys_cons_elim h h')]

theorem akeys_aupsert_not_mem {α : Type} (l : List (String × α)) (k : String) (v : α)
    (h : k ∉ akeys l) : akeys (aupsert l k v) = akeys l ++ [k] := by
  induction l with
  | nil => simp [aupsert, akeys]
  | cons p rest ih =>
    obtain ⟨k', v'⟩ := p
    have h1 : k' ≠ k := not_mem_akeys_cons_head h
    rw [show aupsert ((k', v') :: rest) k v = (k', v') :: aupsert rest k v from by
        simp [aupsert, h1],
      akeys_cons, akeys_cons, ih (not_mem_akeys_cons_tail h)]
    rfl

theorem alookup_none_of_not_mem {α : Type} (l : List (String × α)) (k : String)
    (h : k ∉ akeys l) : alookup l k = none := by
  induction l with
  | nil => rfl
  | cons p rest ih =>
    obtain ⟨k', v'⟩ := p
    have h1 : k' ≠ k := not_mem_akeys_cons_head h
    rw [show alookup ((k', v') :: rest) k = alookup rest k from by simp [alookup, h1]]
    exact ih (not_mem_akeys_cons_tail h)

theorem alookup_isSome_of_mem {α : Type} (l : List (String × α)) (k : String)
    (h : k ∈ akeys l) : ∃ v, alookup l k = some v := by
  induction l with
  | nil => simp [akeys] at h
  | cons p rest ih =>
    obtain ⟨k', v'⟩ := p
    by_cases h' : k' = k
    · exact ⟨v', by simp [alookup, h']⟩
    · obtain ⟨v, hv⟩ := ih (mem_akeys_cons_elim h h')
      exact ⟨v, by simp [alookup, h', hv]⟩

/-- Entries of `b` with keys missing from `a` survive `pyMerge a b` lookups
when the merged-over keys differ. -/
theorem alookup_pyMerge_not_mem {α : Type} (a b : List (String × α)) (k : String)
    (hb : k ∉ akeys b) : alookup (pyMerge a b) k = alookup a k := by
  induction b generalizing a with
  | nil => rfl
  | cons p rest ih =>
    obtain ⟨k', v'⟩ := p
    have h1 : k' ≠ k := not_mem_akeys_cons_head hb
    have h2 : k ∉ akeys rest := not_mem_akeys_cons_tail hb
    calc alookup (pyMerge (aupsert a k' v') rest) k
        = alookup (aupsert a k' v') k := ih (aupsert a k' v') h2
      _ = alookup a k := alookup_aupsert_ne a k' k v' h1

/-! Shared concrete fixtures for witnesses and counterexamples. -/

/-- A constant stream for building concrete run states. -/
def constFun (k : Nat) : Nat → Nat := fun _ => k

/-- A concrete run state: every `random` draw is 3, every entropy draw 0,
every Faker draw 5. -/
def baseState : RunState :=
  { rng := constFun 3, entropy := constFun 0, faker := constFun 5,
    todayFmt := fun s => "T:" ++ s }

/-! Claim C2: behaviour of dependency resolution on a cyclic schema set. -/

/-- Schema `a` holding a `ref` into table `b`. -/
def cycA : Schema :=
  { table_name := "a", type := "master", count := some 1,
    fields := some [("x", { type := some "ref", table := some "b", field := some "y" })] }

/-- Schema `b` holding a `ref` back into table `a`. -/
def cycB : Schema :=
  { table_name := "b", type := "master", count := some 1,
    fields := some [("y", { type := some "ref", table := some "a", field := some "x" })] }

/-- The two-element cyclic schema set (`a` references `b`, `b` references `a`). -/
def cycSchemas : List Schema := [cycA, cycB]

/-- The dependency graph the code builds for `cycSchemas`. -/
def cycG : List (String × List String) := [("a", ["b"]), ("b", ["a"])]

/-- The name index the code builds for `cycSchemas`. -/
def cycN2S : List (String × Schema) := [("a", cycA), ("b", cycB)]

theorem cyc_visit_fuelout : ∀ fuel,
    visit cycG cycN2S fuel ⟨[], []⟩ "a" = VRes.fuelout ∧
    visit cycG cycN2S fuel ⟨[], []⟩ "b" = VRes.fuelout := by
  intro fuel
  induction fuel with
  | zero => exact ⟨rfl, rfl⟩
  | succ f ih =>
    obtain ⟨iha, ihb⟩ := ih
    constructor
    · have ihb' : visit [("a", ["b"]), ("b", ["a"])] cycN2S f ⟨[], []⟩ "b" = VRes.fuelout := ihb
      simp [visit, foldVisit, cycG, alookup, ihb']
    · have iha' : visit [("a", ["b"]), ("b", ["a"])] cycN2S f ⟨[], []⟩ "a" = VRes.fuelout := iha
      simp [visit, foldVisit, cycG, alookup, iha']

/-- C2: the claim (and the spec) demand that a cyclic schema set make
resolution terminate with an explicit cyclic-dependency error via three-state
visit marking; the code has only a two-state `visited` set that is updated
*after* the recursive calls, so on the cycle `a ↔ b` the depth-first descent
exhausts every finite recursion budget — the run dies with the interpreter's
`RecursionError` (a stack overflow guard), not a cyclic-dependency error. -/
theorem C2_cyclic_input_exhausts_any_recursion_budget :
    buildResolve cycSchemas ([], []) = Except.ok (cycG, cycN2S)
    ∧ (∀ fuel, visit cycG cycN2S fuel ⟨[], []⟩ "a" = VRes.fuelout)
    ∧ resolve_dependencies cycSchemas
        = Except.error "RecursionError: maximum recursion depth exceeded" :=
  ⟨rfl, fun fuel => (cyc_visit_fuelout fuel).1, rfl⟩

/-! Claim C10: unrecognized kind tags. -/

/-- A schema with an unrecognized kind tag and no `fields` mapping. -/
def c10Schema : Schema := { table_name := "u", type := "mystery" }

/-- A schema with an unrecognized kind tag that does carry a `fields`
mapping. -/
def c10FieldedSchema : Schema :=
  { table_name := "u2", type := "mystery", fields := some [] }

/-- C10 counterexample: the claim says that *every* schema with an
unrecognized kind tag and no `records` list yields the empty row list without
error; but `generate_rows` reads `schema["fields"]` unconditionally for every
non-pointer kind, so such a schema without a `fields` mapping raises
`KeyError` instead. -/
theorem C10_counterexample :
    generate_rows baseState c10Schema = Except.error "KeyError: fields" := rfl

/-- C10 amended: for a schema whose kind tag is none of the four known kinds,
that carries no literal `records` list but does carry a `fields` mapping,
`generate_rows` raises no error and returns the empty row list, and the main
loop records no output file for the table (it only stores the empty table). -/
theorem C10_amended_unknown_kind_empty (rs : RunState) (schema : Schema)
    (fs : List (String × FieldDef))
    (hrec : schema.records = none) (hfs : schema.fields = some fs)
    (h1 : schema.type ≠ "master") (h2 : schema.type ≠ "immutable")
    (h3 : schema.type ≠ "transactional") (h4 : schema.type ≠ "pointer") :
    generate_rows rs schema = Except.ok ([], rs)
    ∧ ∀ outs, runSchemas [schema] rs outs
        = Except.ok (outs, { rs with data := aupsert rs.data schema.table_name [] }) := by
  have hgen : generate_rows rs schema = Except.ok ([], rs) := by
    simp [generate_rows, hrec, hfs, h1, h2, h3, h4]
  refine ⟨hgen, fun outs => ?_⟩
  simp [runSchemas, hgen]

theorem C10_amended_unknown_kind_empty_witness :
    (c10FieldedSchema.records = none ∧ c10FieldedSchema.fields = some []
      ∧ c10FieldedSchema.type ≠ "master" ∧ c10FieldedSchema.type ≠ "immutable"
      ∧ c10FieldedSchema.type ≠ "transactional" ∧ c10FieldedSchema.type ≠ "pointer")
    ∧ (generate_rows baseState c10FieldedSchema = Except.ok ([], baseState)
      ∧ ∀ outs, runSchemas [c10FieldedSchema] baseState outs
          = Except.ok (outs,
              { baseState with
                  data := aupsert baseState.data c10FieldedSchema.table_name [] })) :=
  ⟨⟨rfl, rfl, by decide, by decide, by decide, by decide⟩,
    C10_amended_unknown_kind_empty baseState c10FieldedSchema [] rfl rfl
      (by decide) (by decide) (by decide) (by decide)⟩

/-! Claim C9: the parent-less transactional branch has master mechanics. -/

theorem buildRow_master_eq_trans : ∀ (fields : List (String × FieldDef))
    (rs : RunState) (row : Row), buildRowMaster fields rs row = buildRowTrans fields rs row := by
  intro fields
  induction fields with
  | nil => intro rs row; rfl
  | cons p rest ih =>
    intro rs row
    obtain ⟨name, fd⟩ := p
    simp only [buildRowMaster, buildRowTrans]
    cases generate_value rs name fd row with
    | error e => rfl
    | ok pr => exact ih pr.2 (aupsert row name pr.1)

theorem loop_master_eq_trans (fields : List (String × FieldDef)) :
    ∀ (n : Nat) (rs : RunState) (rows : List Row),
      masterLoop fields n rs rows = transLoop fields n rs rows := by
  intro n
  induction n with
  | zero => intro rs rows; rfl
  | succ k ih =>
    intro rs rows
    simp only [masterLoop, transLoop, buildRow_master_eq_trans]
    cases buildRowTrans fields rs [] with
    | error e => rfl
    | ok pr => exact ih pr.2 (rows ++ [pr.1])

/-- C9: a parent-less transactional schema is generated by mechanics
identical to the master branch: on every state, retyping the schema as
`master` yields the very same result (rows and final state), including all
error behaviour. -/
theorem C9_transactional_eq_master (rs : RunState) (schema : Schema)
    (hty : schema.type = "transactional") (hpar : schema.parent = none) :
    generate_rows rs schema = generate_rows rs { schema with type := "master" } := by
  simp only [generate_rows]
  cases hrec : schema.records with
  | some recs => rfl
  | none =>
    simp only [hty, hpar]
    cases hf : schema.fields with
    | none => rfl
    | some fs =>
      simp only []
      norm_num
      cases hc : schema.count with
      | none => simp [getCountE, hc]
      | some cnt => simp [getCountE, hc, loop_master_eq_trans]

/-- A concrete parent-less transactional schema for the C9 witness. -/
def c9Schema : Schema :=
  { table_name := "t9", type := "transactional", count := some 2,
    fields := some [("id", { type := some "auto_increment" })] }

theorem C9_transactional_eq_master_witness :
    (c9Schema.type = "transactional" ∧ c9Schema.parent = none)
    ∧ generate_rows baseState c9Schema
        = generate_rows baseState { c9Schema with type := "master" } :=
  ⟨⟨rfl, rfl⟩, C9_transactional_eq_master baseState c9Schema rfl rfl⟩

/-! Claim C7: the `seq` counter of `code` patterns. -/

/-- A token-free character sequence is copied literally by the substitution
engine, whatever follows it. -/
theorem pyReSubTokens_literal (pat : String) : ∀ (a : List Char), '{' ∉ a →
    ∀ (rest : List Char) (rs : RunState),
    pyReSubTokens pat (a ++ rest) rs
      = match pyReSubTokens pat rest rs with
        | Except.ok (t, rs') => Except.ok (String.mk a ++ t, rs')
        | Except.error e => Except.error e := by
  intro a
  induction a with
  | nil =>
    intro _ rest rs
    simp only [List.nil_append]
    cases h : pyReSubTokens pat rest rs with
    | ok p => obtain ⟨t, rs'⟩ := p; rfl
    | error e => rfl
  | cons c a' ih =>
    intro hmem rest rs
    have hc : ¬ c = '{' := by
      intro h
      exact hmem (h ▸ List.mem_cons_self _ _)
    have hm' : '{' ∉ a' := fun h => hmem (List.mem_cons_of_mem _ h)
    simp only [List.cons_append, pyReSubTokens, if_neg hc]
    rw [ih hm' rest rs]
    cases h : pyReSubTokens pat rest rs with
    | ok p => obtain ⟨t, rs'⟩ := p; rfl
    | error e => rfl

/-- A token-free tail is rendered as itself with no state change. -/
theorem pyReSubTokens_literal_nil (pat : String) (a : List Char) (ha : '{' ∉ a)
    (rs : RunState) : pyReSubTokens pat a rs = Except.ok (String.mk a, rs) := by
  have h := pyReSubTokens_literal pat a ha [] rs
  rw [List.append_nil] at h
  have hnil : pyReSubTokens pat [] rs = Except.ok ("", rs) := by
    simp [pyReSubTokens]
  rw [h, hnil]
  show Except.ok (String.mk (a ++ []), rs) = Except.ok (String.mk a, rs)
  rw [List.append_nil]

/-- `extractToken` scans exactly to the closing brace when the token text
contains none. -/
theorem extractToken_no_close : ∀ (tok rest : List Char), '}' ∉ tok →
    extractToken (tok ++ '}' :: rest) = some (String.mk tok, rest) := by
  intro tok
  induction tok with
  | nil => intro rest _; rfl
  | cons c tok' ih =>
    intro rest hmem
    have hc : ¬ c = '}' := by
      intro h
      exact hmem (h ▸ List.mem_cons_self _ _)
    have hm' : '}' ∉ tok' := fun h => hmem (List.mem_cons_of_mem _ h)
    simp only [List.cons_append, extractToken, if_neg hc]
    rw [show tok'.append ('}' :: rest) = tok' ++ '}' :: rest from rfl, ih rest hm']
    rfl

/-- Splitting a separator-free sequence returns one segment. -/
theorem splitCharAux_no_sep (sep : Char) : ∀ (w cur : List Char), sep ∉ w →
    splitCharAux sep cur w = [String.mk (cur.reverse ++ w)] := by
  intro w
  induction w with
  | nil => intro cur _; simp [splitCharAux]
  | cons c w' ih =>
    intro cur hmem
    have hc : ¬ c = sep := by
      intro h
      exact hmem (h ▸ List.mem_cons_self _ _)
    have hm' : sep ∉ w' := fun h => hmem (List.mem_cons_of_mem _ h)
    rw [show splitCharAux sep cur (c :: w') = splitCharAux sep (c :: cur) w' from by
        simp [splitCharAux, hc],
      ih (c :: cur) hm']
    simp

/-- One `seq:<width>` token substitution: the counter keyed by the whole
pattern string is bumped and rendered zero-padded. -/
theorem applyToken_seq (rs : RunState) (pat w : String) (width : Int)
    (hw1 : ':' ∉ w.data) (hint : strToIntM w = some width) :
    applyToken rs pat (String.mk ('s' :: 'e' :: 'q' :: ':' :: w.data))
      = Except.ok (zfill width.toNat (toString ((alookup rs.seqCounter pat).getD 0 + 1)),
          { rs with
              seqCounter := aupsert rs.seqCounter pat
                ((alookup rs.seqCounter pat).getD 0 + 1) }) := by
  have hsplit : strSplitChar ':' (String.mk ('s' :: 'e' :: 'q' :: ':' :: w.data)) = ["seq", w] := by
    show splitCharAux ':' [] ('s' :: 'e' :: 'q' :: ':' :: w.data) = ["seq", w]
    rw [show splitCharAux ':' [] ('s' :: 'e' :: 'q' :: ':' :: w.data)
        = String.mk ['s', 'e', 'q'] :: splitCharAux ':' [] w.data from by
        simp [splitCharAux],
      splitCharAux_no_sep ':' w.data [] hw1]
    rfl
  have hd : strBeginsWith (String.mk ('s' :: 'e' :: 'q' :: ':' :: w.data)) "date:" = false := rfl
  have hs : strBeginsWith (String.mk ('s' :: 'e' :: 'q' :: ':' :: w.data)) "seq:" = true := rfl
  rw [applyToken, hd, hs]
  simp only [Bool.false_eq_true, if_false, if_true, hsplit,
    show (["seq", w] : List String)[1]? = some w from rfl, hint]

/-- `extractToken` on a `seq` token body scans to the closing brace. -/
theorem extractToken_seq (w : String) (rest : List Char) (hw2 : '}' ∉ w.data) :
    extractToken ('s' :: 'e' :: 'q' :: ':' :: (w.data ++ '}' :: rest))
      = some (String.mk ('s' :: 'e' :: 'q' :: ':' :: w.data), rest) := by
  have h := extractToken_no_close w.data rest hw2
  simp only [extractToken, if_neg (show ¬ 's' = '}' from by decide),
    if_neg (show ¬ 'e' = '}' from by decide), if_neg (show ¬ 'q' = '}' from by decide),
    if_neg (show ¬ ':' = '}' from by decide), h]
  rfl

/-- Full rendering of a pattern `a{seq:w}b` whose surroundings carry no other
token: the literal pieces are copied and the pattern-keyed counter is bumped
once. -/
theorem pyReSubTokens_seq (pat : String) (a w b : String) (width : Int)
    (rs : RunState) (ha : '{' ∉ a.data) (hw1 : ':' ∉ w.data) (hw2 : '}' ∉ w.data)
    (hb : '{' ∉ b.data) (hint : strToIntM w = some width) :
    pyReSubTokens pat (a.data ++ '{' :: 's' :: 'e' :: 'q' :: ':' :: (w.data ++ '}' :: b.data)) rs
      = Except.ok
          (a ++ (zfill width.toNat (toString ((alookup rs.seqCounter pat).getD 0 + 1)) ++ b),
          { rs with
              seqCounter := aupsert rs.seqCounter pat
                ((alookup rs.seqCounter pat).getD 0 + 1) }) := by
  have hstep : pyReSubTokens pat ('{' :: 's' :: 'e' :: 'q' :: ':' :: (w.data ++ '}' :: b.data)) rs
      = Except.ok
          ((zfill width.toNat (toString ((alookup rs.seqCounter pat).getD 0 + 1)) ++ b),
          { rs with
              seqCounter := aupsert rs.seqCounter pat
                ((alookup rs.seqCounter pat).getD 0 + 1) }) := by
    rw [pyReSubTokens, if_pos (rfl : ('{' : Char) = '{')]
    split
    next tok rest' heq =>
      rw [extractToken_seq w b.data hw2] at heq
      obtain ⟨htok, hrest⟩ := Prod.mk.injEq .. ▸ Option.some.inj heq
      subst htok
      subst hrest
      rw [applyToken_seq rs pat w width hw1 hint]
      simp only [pyReSubTokens_literal_nil pat b.data hb]
    next heq =>
      rw [extractToken_seq w b.data hw2] at heq
      cases heq
  rw [pyReSubTokens_literal pat a.data ha _ rs, hstep]

set_option maxHeartbeats 1000000 in
/-- One synthesis call on a `code` field whose pattern is `a{seq:w}b` with
token-free `a` and `b`: whatever the field name and the context, the call
returns the pattern with the token replaced by the zero-padded successor of
the counter stored under the whole literal pattern string, and bumps exactly
that counter. -/
theorem generate_value_code_seq (rs : RunState) (f : String) (fd : FieldDef)
    (ctx : Row) (a w b : String) (width : Int)
    (hnull : fd.nullable = false) (hdef : fd.default = none)
    (hty : fd.type = some "code")
    (hpat : fd.pattern = some (a ++ ("\x7bseq:" ++ (w ++ ("\x7d" ++ b)))))
    (ha : '{' ∉ a.data) (hw1 : ':' ∉ w.data) (hw2 : '}' ∉ w.data)
    (hb : '{' ∉ b.data) (hint : strToIntM w = some width) :
    generate_value rs f fd ctx
      = Except.ok
          (Value.str
            (a ++ (zfill width.toNat
              (toString ((alookup rs.seqCounter (a ++ ("\x7bseq:" ++ (w ++ ("\x7d" ++ b))))).getD 0 + 1))
              ++ b)),
          { rs with
              seqCounter := aupsert rs.seqCounter (a ++ ("\x7bseq:" ++ (w ++ ("\x7d" ++ b))))
                ((alookup rs.seqCounter (a ++ ("\x7bseq:" ++ (w ++ ("\x7d" ++ b))))).getD 0 + 1) }) := by
  have hdata : (a ++ ("\x7bseq:" ++ (w ++ ("\x7d" ++ b)))).data
      = a.data ++ '{' :: 's' :: 'e' :: 'q' :: ':' :: (w.data ++ '}' :: b.data) := rfl
  have hsub := pyReSubTokens_seq (a ++ ("\x7bseq:" ++ (w ++ ("\x7d" ++ b)))) a w b width rs
    ha hw1 hw2 hb hint
  rw [generate_value, hnull]
  simp only [Bool.false_eq_true, if_false]
  rw [generate_value_core, hdef, hty, hpat]
  simp only [Option.isSome_none, Bool.false_eq_true, if_false, Option.getD_some]
  rw [hdata, hsub]

/-- C7: for a `code` field whose pattern contains a `seq` token (written
`a{seq:w}b` with token-free surroundings), three successive synthesis calls
sharing that exact literal pattern string — regardless of the field names,
field definitions and contexts involved, i.e. across rows and tables — yield
`a ++ zfill(1) ++ b`, `a ++ zfill(2) ++ b`, `a ++ zfill(3) ++ b` when the
counter for that pattern string starts out absent: the counter is keyed by
the whole pattern string, starts at 1, increases by one per substitution, and
is zero-padded to the width. -/
theorem C7_seq_counter_keyed_by_pattern (rs : RunState)
    (f1 f2 f3 : String) (fd1 fd2 fd3 : FieldDef) (c1 c2 c3 : Row)
    (a w b : String) (width : Int)
    (ha : '{' ∉ a.data) (hw1 : ':' ∉ w.data) (hw2 : '}' ∉ w.data)
    (hb : '{' ∉ b.data) (hint : strToIntM w = some width)
    (h0 : alookup rs.seqCounter (a ++ ("\x7bseq:" ++ (w ++ ("\x7d" ++ b)))) = none)
    (hn1 : fd1.nullable = false) (hd1 : fd1.default = none)
    (ht1 : fd1.type = some "code")
    (hp1 : fd1.pattern = some (a ++ ("\x7bseq:" ++ (w ++ ("\x7d" ++ b)))))
    (hn2 : fd2.nullable = false) (hd2 : fd2.default = none)
    (ht2 : fd2.type = some "code")
    (hp2 : fd2.pattern = some (a ++ ("\x7bseq:" ++ (w ++ ("\x7d" ++ b)))))
    (hn3 : fd3.nullable = false) (hd3 : fd3.default = none)
    (ht3 : fd3.type = some "code")
    (hp3 : fd3.pattern = some (a ++ ("\x7bseq:" ++ (w ++ ("\x7d" ++ b))))) :
    ∃ rs1 rs2 rs3,
      generate_value rs f1 fd1 c1
        = Except.ok (Value.str (a ++ (zfill width.toNat (toString 1) ++ b)), rs1)
      ∧ generate_value rs1 f2 fd2 c2
        = Except.ok (Value.str (a ++ (zfill width.toNat (toString 2) ++ b)), rs2)
      ∧ generate_value rs2 f3 fd3 c3
        = Except.ok (Value.str (a ++ (zfill width.toNat (toString 3) ++ b)), rs3) := by
  refine ⟨{ rs with seqCounter := aupsert rs.seqCounter (a ++ ("\x7bseq:" ++ (w ++ ("\x7d" ++ b)))) 1 },
    { rs with
        seqCounter :=
          aupsert (aupsert rs.seqCounter (a ++ ("\x7bseq:" ++ (w ++ ("\x7d" ++ b)))) 1)
            (a ++ ("\x7bseq:" ++ (w ++ ("\x7d" ++ b)))) 2 },
    { rs with
        seqCounter :=
          aupsert
            (aupsert (aupsert rs.seqCounter (a ++ ("\x7bseq:" ++ (w ++ ("\x7d" ++ b)))) 1)
              (a ++ ("\x7bseq:" ++ (w ++ ("\x7d" ++ b)))) 2)
            (a ++ ("\x7bseq:" ++ (w ++ ("\x7d" ++ b)))) 3 },
    ?_, ?_, ?_⟩
  · rw [generate_value_code_seq rs f1 fd1 c1 a w b width hn1 hd1 ht1 hp1 ha hw1 hw2 hb hint, h0]
    rfl
  · rw [generate_value_code_seq _ f2 fd2 c2 a w b width hn2 hd2 ht2 hp2 ha hw1 hw2 hb hint]
    simp only [alookup_aupsert_self, Option.getD_some]
  · rw [generate_value_code_seq _ f3 fd3 c3 a w b width hn3 hd3 ht3 hp3 ha hw1 hw2 hb hint]
    simp only [alookup_aupsert_self, Option.getD_some]

/-- A concrete `code` field with pattern `"INV-{seq:4}"` for the C7 witness. -/
def invCodeFd : FieldDef := { type := some "code", pattern := some "INV-{seq:4}" }

theorem C7_seq_counter_keyed_by_pattern_witness :
    ('{' ∉ "INV-".data ∧ ':' ∉ "4".data ∧ '}' ∉ "4".data ∧ '{' ∉ "".data
      ∧ strToIntM "4" = some 4
      ∧ alookup baseState.seqCounter ("INV-" ++ ("\x7bseq:" ++ ("4" ++ ("\x7d" ++ "")))) = none
      ∧ invCodeFd.nullable = false ∧ invCodeFd.default = none
      ∧ invCodeFd.type = some "code"
      ∧ invCodeFd.pattern = some ("INV-" ++ ("\x7bseq:" ++ ("4" ++ ("\x7d" ++ "")))))
    ∧ ∃ rs1 rs2 rs3,
        generate_value baseState "num" invCodeFd []
          = Except.ok (Value.str ("INV-" ++ (zfill (4 : Int).toNat (toString 1) ++ "")), rs1)
        ∧ generate_value rs1 "code2" invCodeFd []
          = Except.ok (Value.str ("INV-" ++ (zfill (4 : Int).toNat (toString 2) ++ "")), rs2)
        ∧ generate_value rs2 "num" invCodeFd [("k", Value.int 1)]
          = Except.ok (Value.str ("INV-" ++ (zfill (4 : Int).toNat (toString 3) ++ "")), rs3) :=
  ⟨⟨by decide, by decide, by decide, by decide, by decide, rfl, rfl, rfl, rfl, rfl⟩,
    C7_seq_counter_keyed_by_pattern baseState "num" "code2" "num" invCodeFd invCodeFd invCodeFd
      [] [] [("k", Value.int 1)] "INV-" "4" "" 4
      (by decide) (by decide) (by decide) (by decide) (by decide)
      rfl rfl rfl rfl rfl rfl rfl rfl rfl rfl rfl rfl rfl⟩

/-! Claim C6: seeded reproducibility of the whole pipeline. -/

/-- A one-table schema whose only field is a `uuid`. -/
def uuidSchema : Schema :=
  { table_name := "u", type := "master", count := some 1,
    fields := some [("uid", { type := some "uuid" })] }

/-- The same run state as `baseState` except for the OS-entropy source; the
seedable `random` stream, the Faker stream and all counters are identical. -/
def baseStateEntropy1 : RunState := { baseState with entropy := constFun 1 }

/-- C6: the claim (and the spec) say that with a fixed random seed two runs
produce byte-identical output, every random draw coming from the seedable
random source.  But `str(uuid.uuid4())` draws from operating-system entropy,
which `random.seed` does not control (and `Faker` keeps its own generator):
two runs over the same schemas whose seedable streams agree — differing only
in the OS entropy that a seed cannot fix — produce different output files. -/
theorem C6_seeded_runs_not_reproducible :
    baseStateEntropy1 = { baseState with entropy := constFun 1 }
    ∧ (mainRun [uuidSchema] baseState).toOption.map Prod.fst
        = some [("u", [[("uid", Value.str "uuid-0")]])]
    ∧ (mainRun [uuidSchema] baseStateEntropy1).toOption.map Prod.fst
        = some [("u", [[("uid", Value.str "uuid-1")]])]
    ∧ (some [("u", [[("uid", Value.str "uuid-0")]])]
        : Option (List (String × List Row)))
        ≠ some [("u", [[("uid", Value.str "uuid-1")]])] :=
  ⟨rfl, rfl, rfl, by decide⟩

/-! Claim C5: auto_increment counter scoping. -/

/-- An `auto_increment` field definition. -/
def autoIncFd : FieldDef := { type := some "auto_increment" }

/-- Parent-less master table using counter `id`. -/
def c5M1 : Schema :=
  { table_name := "m1", type := "master", count := some 1,
    fields := some [("id", autoIncFd)] }

/-- A parent table. -/
def c5Par : Schema :=
  { table_name := "par", type := "master", count := some 1,
    fields := some [("pk", { type := some "const", value := some (Value.int 7) })] }

/-- A child table of `par`; its generation clears the whole `AUTO_INC`
dictionary at the start of each parent group. -/
def c5Child : Schema :=
  { table_name := "ch", type := "transactional", parent := some "par",
    count_per_parent := some "1", fields := some [("cid", autoIncFd)] }

/-- A second parent-less master table using the same counter name `id`. -/
def c5M2 : Schema :=
  { table_name := "m2", type := "master", count := some 1,
    fields := some [("id", autoIncFd)] }

/-- The C5 counterexample run: two parent-less tables sharing the counter
name `id`, with a parent-scoped table generated in between. -/
def c5Schemas : List Schema := [c5M1, c5Par, c5Child, c5M2]

/-- C5 counterexample: the claim says the counter of a field belonging to a
parent-less table is global and never reset during a run, which would give
the strictly increasing values 1 then 2 to the two `id` draws of `m1` and
`m2`.  In fact `AUTO_INC.clear()` during the parent-scoped table `ch` wipes
*all* counters, so `m2` restarts at 1 — both `id` cells hold 1, and the final
`id` counter reads 1 after two draws on it. -/
theorem C5_counterexample :
    (mainRun c5Schemas baseState).toOption.map Prod.fst
      = some [("m1", [[("id", Value.int 1)]]), ("par", [[("pk", Value.int 7)]]),
          ("ch", [[("cid", Value.int 1)]]), ("m2", [[("id", Value.int 1)]])]
    ∧ (mainRun c5Schemas baseState).toOption.map (fun p => alookup p.2.autoInc "id")
      = some (some 1) :=
  ⟨rfl, rfl⟩

set_option maxHeartbeats 1000000 in
/-- C5 amended: `auto_increment` counters are scoped per `field_name`, return
the successor of the stored counter (so they start at 1 when the counter is
absent and strictly increase between resets); tables with a parent clear the
*entire* counter table at the start of each parent group — the generation of
a parent group is therefore insensitive to every counter accumulated before
it, including counters used by parent-less tables. -/
theorem C5_amended_auto_increment_scoping :
    (∀ (rs : RunState) (name : String) (fd : FieldDef) (ctx : Row),
      fd.type = some "auto_increment" → fd.nullable = false → fd.default = none →
      generate_value rs name fd ctx
        = Except.ok (Value.int (((alookup rs.autoInc name).getD 0 + 1 : Nat) : Int),
            { rs with autoInc := aupsert rs.autoInc name ((alookup rs.autoInc name).getD 0 + 1) }))
    ∧ (∀ (pt : String) (fields : List (String × FieldDef)) (minc maxc : Int)
        (parent : Row) (rest : List Row) (rs : RunState) (a : List (String × Nat))
        (rows : List Row),
      parentsLoop pt fields minc maxc (parent :: rest) { rs with autoInc := a } rows
        = parentsLoop pt fields minc maxc (parent :: rest) rs rows) := by
  constructor
  · intro rs name fd ctx hty hnull hdef
    rw [generate_value, hnull]
    simp only [Bool.false_eq_true, if_false]
    rw [generate_value_core, hdef, hty]
    simp only [Option.isSome_none, Bool.false_eq_true, if_false]
  · intro pt fields minc maxc parent rest rs a rows
    rfl

theorem C5_amended_auto_increment_scoping_witness :
    (autoIncFd.type = some "auto_increment" ∧ autoIncFd.nullable = false
      ∧ autoIncFd.default = none)
    ∧ generate_value baseState "id" autoIncFd []
        = Except.ok (Value.int 1, { baseState with autoInc := [("id", 1)] })
    ∧ parentsLoop "par" [("cid", autoIncFd)] 1 1 [[("pk", Value.int 7)]]
          { baseState with autoInc := [("id", 1)] } []
        = parentsLoop "par" [("cid", autoIncFd)] 1 1 [[("pk", Value.int 7)]] baseState [] :=
  ⟨⟨rfl, rfl, rfl⟩,
    C5_amended_auto_increment_scoping.1 baseState "id" autoIncFd [] rfl rfl rfl,
    C5_amended_auto_increment_scoping.2 "par" [("cid", autoIncFd)] 1 1
      [("pk", Value.int 7)] [] baseState [("id", 1)] []⟩

/-! Claim C8: row insertion order versus field declaration order. -/

/-- Is a field a `version_sequence` field? -/
def isVersionFd (p : String × FieldDef) : Bool := p.2.type = some "version_sequence"

/-- Names of the non-`version_sequence` fields, in declaration order. -/
def nonVersionNames (fields : List (String × FieldDef)) : List String :=
  (fields.filter (fun p => !isVersionFd p)).map Prod.fst

/-- Names of the `version_sequence` fields, in declaration order. -/
def versionNames (fields : List (String × FieldDef)) : List String :=
  (fields.filter (fun p => isVersionFd p)).map Prod.fst

theorem nodup_shift {α : Type} (pre : List α) (x : α) (rest : List α)
    (h : (pre ++ x :: rest).Nodup) : x ∉ pre ∧ ((pre ++ [x]) ++ rest).Nodup := by
  constructor
  · intro hx
    exact (List.disjoint_of_nodup_append h) hx (List.mem_cons_self x rest)
  · rwa [← List.append_cons]

theorem buildRowMaster_keys :
    ∀ (fields : List (String × FieldDef)) (rs : RunState) (row out : Row)
      (rs' : RunState),
      buildRowMaster fields rs row = Except.ok (out, rs') →
      (akeys row ++ fields.map Prod.fst).Nodup →
      akeys out = akeys row ++ fields.map Prod.fst := by
  intro fields
  induction fields with
  | nil =>
    intro rs row out rs' h _
    simp only [buildRowMaster, Except.ok.injEq, Prod.mk.injEq] at h
    rw [← h.1]
    simp
  | cons p rest ih =>
    obtain ⟨name, fd⟩ := p
    intro rs row out rs' h hnd
    simp only [List.map_cons] at hnd
    obtain ⟨hnotin, hnd2⟩ := nodup_shift (akeys row) name (rest.map Prod.fst) hnd
    simp only [buildRowMaster] at h
    cases hg : generate_value rs name fd row with
    | error e => rw [hg] at h; cases h
    | ok pr =>
      obtain ⟨v, rs1⟩ := pr
      rw [hg] at h
      have hkeys := akeys_aupsert_not_mem row name v hnotin
      have hnd' : (akeys (aupsert row name v) ++ rest.map Prod.fst).Nodup := by
        rw [hkeys]; exact hnd2
      have hout := ih rs1 (aupsert row name v) out rs' h hnd'
      rw [hout, hkeys]
      simp

theorem buildRowTrans_keys (fields : List (String × FieldDef)) (rs : RunState)
    (row out : Row) (rs' : RunState)
    (h : buildRowTrans fields rs row = Except.ok (out, rs'))
    (hnd : (akeys row ++ fields.map Prod.fst).Nodup) :
    akeys out = akeys row ++ fields.map Prod.fst := by
  rw [← buildRow_master_eq_trans] at h
  exact buildRowMaster_keys fields rs row out rs' h hnd

theorem buildRowParent_keys (pt : String) (parent : Row) :
    ∀ (fields : List (String × FieldDef)) (rs : RunState) (row out : Row)
      (rs' : RunState),
      buildRowParent pt parent fields rs row = Except.ok (out, rs') →
      (akeys row ++ fields.map Prod.fst).Nodup →
      akeys out = akeys row ++ fields.map Prod.fst := by
  intro fields
  induction fields with
  | nil =>
    intro rs row out rs' h _
    simp only [buildRowParent, Except.ok.injEq, Prod.mk.injEq] at h
    rw [← h.1]
    simp
  | cons p rest ih =>
    obtain ⟨name, fd⟩ := p
    intro rs row out rs' h hnd
    simp only [List.map_cons] at hnd
    obtain ⟨hnotin, hnd2⟩ := nodup_shift (akeys row) name (rest.map Prod.fst) hnd
    have hstep : ∀ (v : Value) (rs1 : RunState),
        buildRowParent pt parent rest rs1 (aupsert row name v) = Except.ok (out, rs') →
        akeys out = akeys row ++ name :: rest.map Prod.fst := by
      intro v rs1 hrec
      have hkeys := akeys_aupsert_not_mem row name v hnotin
      have hnd' : (akeys (aupsert row name v) ++ rest.map Prod.fst).Nodup := by
        rw [hkeys]; exact hnd2
      have hout := ih rs1 (aupsert row name v) out rs' hrec hnd'
      rw [hout, hkeys]
      simp
    rw [show (List.map Prod.fst ((name, fd) :: rest)) = name :: rest.map Prod.fst from rfl]
    simp only [buildRowParent] at h
    split at h
    · split at h
      · cases h
      · split at h
        · split at h
          · cases h
          · split at h
            · exact hstep _ _ h
            · split at h
              · cases h
              · exact hstep _ _ h
        · split at h
          · cases h
          · exact hstep _ _ h
    · split at h
      · exact hstep _ _ h
      · split at h
        · cases h
        · exact hstep _ _ h

theorem buildBaseRow_keys :
    ∀ (fields : List (String × FieldDef)) (rs : RunState) (row out : Row)
      (rs' : RunState),
      buildBaseRow fields rs row = Except.ok (out, rs') →
      (akeys row ++ nonVersionNames fields).Nodup →
      akeys out = akeys row ++ nonVersionNames fields := by
  intro fields
  induction fields with
  | nil =>
    intro rs row out rs' h _
    simp only [buildBaseRow, Except.ok.injEq, Prod.mk.injEq] at h
    rw [← h.1]
    simp [nonVersionNames]
  | cons p rest ih =>
    obtain ⟨name, fd⟩ := p
    intro rs row out rs' h hnd
    simp only [buildBaseRow] at h
    by_cases hv : fd.type = some "version_sequence"
    · rw [if_pos hv] at h
      have hfil : nonVersionNames ((name, fd) :: rest) = nonVersionNames rest := by
        simp [nonVersionNames, List.filter_cons, isVersionFd, hv]
      rw [hfil] at hnd ⊢
      exact ih rs row out rs' h hnd
    · rw [if_neg hv] at h
      have hfil : nonVersionNames ((name, fd) :: rest) = name :: nonVersionNames rest := by
        simp [nonVersionNames, List.filter_cons, isVersionFd, hv]
      rw [hfil] at hnd ⊢
      obtain ⟨hnotin, hnd2⟩ := nodup_shift (akeys row) name (nonVersionNames rest) hnd
      cases hg : generate_value rs name fd [] with
      | error e => rw [hg] at h; cases h
      | ok pr =>
        obtain ⟨v, rs1⟩ := pr
        rw [hg] at h
        have hkeys := akeys_aupsert_not_mem row name v hnotin
        have hnd' : (akeys (aupsert row name v) ++ nonVersionNames rest).Nodup := by
          rw [hkeys]; exact hnd2
        have hout := ih rs1 (aupsert row name v) out rs' h hnd'
        rw [hout, hkeys]
        simp

theorem applyVersionFields_keys (ctx : Row) :
    ∀ (fields : List (String × FieldDef)) (rs : RunState) (row out : Row)
      (rs' : RunState),
      applyVersionFields ctx fields rs row = Except.ok (out, rs') →
      (akeys row ++ versionNames fields).Nodup →
      akeys out = akeys row ++ versionNames fields := by
  intro fields
  induction fields with
  | nil =>
    intro rs row out rs' h _
    simp only [applyVersionFields, Except.ok.injEq, Prod.mk.injEq] at h
    rw [← h.1]
    simp [versionNames]
  | cons p rest ih =>
    obtain ⟨name, fd⟩ := p
    intro rs row out rs' h hnd
    simp only [applyVersionFields] at h
    by_cases hv : fd.type = some "version_sequence"
    · rw [if_pos hv] at h
      have hfil : versionNames ((name, fd) :: rest) = name :: versionNames rest := by
        simp [versionNames, List.filter_cons, isVersionFd, hv]
      rw [hfil] at hnd ⊢
      obtain ⟨hnotin, hnd2⟩ := nodup_shift (akeys row) name (versionNames rest) hnd
      cases hg : generate_value rs name fd ctx with
      | error e => rw [hg] at h; cases h
      | ok pr =>
        obtain ⟨v, rs1⟩ := pr
        rw [hg] at h
        have hkeys := akeys_aupsert_not_mem row name v hnotin
        have hnd' : (akeys (aupsert row name v) ++ versionNames rest).Nodup := by
          rw [hkeys]; exact hnd2
        have hout := ih rs1 (aupsert row name v) out rs' h hnd'
        rw [hout, hkeys]
        simp
    · rw [if_neg hv] at h
      have hfil : versionNames ((name, fd) :: rest) = versionNames rest := by
        simp [versionNames, List.filter_cons, isVersionFd, hv]
      rw [hfil] at hnd ⊢
      exact ih rs row out rs' h hnd

theorem masterLoop_rows_keys (fields : List (String × FieldDef))
    (hfld : (fields.map Prod.fst).Nodup) :
    ∀ (n : Nat) (rs : RunState) (rows out : List Row) (rs' : RunState),
      masterLoop fields n rs rows = Except.ok (out, rs') →
      ∀ r ∈ out, r ∈ rows ∨ akeys r = fields.map Prod.fst := by
  intro n
  induction n with
  | zero =>
    intro rs rows out rs' h r hr
    simp only [masterLoop, Except.ok.injEq, Prod.mk.injEq] at h
    exact Or.inl (h.1 ▸ hr)
  | succ k ih =>
    intro rs rows out rs' h r hr
    simp only [masterLoop] at h
    cases hg : buildRowMaster fields rs [] with
    | error e => rw [hg] at h; cases h
    | ok pr =>
      obtain ⟨row, rs1⟩ := pr
      rw [hg] at h
      have hk : akeys row = fields.map Prod.fst := by
        have := buildRowMaster_keys fields rs [] row rs1 hg (by simpa [akeys] using hfld)
        simpa [akeys] using this
      rcases ih rs1 (rows ++ [row]) out rs' h r hr with hm | hkeq
      · rcases List.mem_append.mp hm with hm | hm
        · exact Or.inl hm
        · right
          rw [List.mem_singleton.mp hm]
          exact hk
      · exact Or.inr hkeq

theorem transLoop_rows_keys (fields : List (String × FieldDef))
    (hfld : (fields.map Prod.fst).Nodup)
    (n : Nat) (rs : RunState) (rows out : List Row) (rs' : RunState)
    (h : transLoop fields n rs rows = Except.ok (out, rs')) :
    ∀ r ∈ out, r ∈ rows ∨ akeys r = fields.map Prod.fst := by
  rw [← loop_master_eq_trans] at h
  exact masterLoop_rows_keys fields hfld n rs rows out rs' h

theorem parentRowsLoop_rows_keys (pt : String) (parent : Row)
    (fields : List (String × FieldDef)) (hfld : (fields.map Prod.fst).Nodup) :
    ∀ (n : Nat) (rs : RunState) (rows out : List Row) (rs' : RunState),
      parentRowsLoop pt parent fields n rs rows = Except.ok (out, rs') →
      ∀ r ∈ out, r ∈ rows ∨ akeys r = fields.map Prod.fst := by
  intro n
  induction n with
  | zero =>
    intro rs rows out rs' h r hr
    simp only [parentRowsLoop, Except.ok.injEq, Prod.mk.injEq] at h
    exact Or.inl (h.1 ▸ hr)
  | succ k ih =>
    intro rs rows out rs' h r hr
    simp only [parentRowsLoop] at h
    cases hg : buildRowParent pt parent fields rs [] with
    | error e => rw [hg] at h; cases h
    | ok pr =>
      obtain ⟨row, rs1⟩ := pr
      rw [hg] at h
      have hk : akeys row = fields.map Prod.fst := by
        have := buildRowParent_keys pt parent fields rs [] row rs1 hg
          (by simpa [akeys] using hfld)
        simpa [akeys] using this
      rcases ih rs1 (rows ++ [row]) out rs' h r hr with hm | hkeq
      · rcases List.mem_append.mp hm with hm | hm
        · exact Or.inl hm
        · right
          rw [List.mem_singleton.mp hm]
          exact hk
      · exact Or.inr hkeq

theorem parentsLoop_rows_keys (pt : String) (fields : List (String × FieldDef))
    (minc maxc : Int) (hfld : (fields.map Prod.fst).Nodup) :
    ∀ (parents : List Row) (rs : RunState) (rows out : List Row) (rs' : RunState),
      parentsLoop pt fields minc maxc parents rs rows = Except.ok (out, rs') →
      ∀ r ∈ out, r ∈ rows ∨ akeys r = fields.map Prod.fst := by
  intro parents
  induction parents with
  | nil =>
    intro rs rows out rs' h r hr
    simp only [parentsLoop, Except.ok.injEq, Prod.mk.injEq] at h
    exact Or.inl (h.1 ▸ hr)
  | cons parent rest ih =>
    intro rs rows out rs' h r hr
    simp only [parentsLoop] at h
    cases hk : pyRandint { rs with autoInc := [] } minc maxc with
    | error e => rw [hk] at h; cases h
    | ok pr =>
      obtain ⟨k, rs1⟩ := pr
      rw [hk] at h
      have h2 : (match parentRowsLoop pt parent fields k.toNat rs1 rows with
          | Except.error e => Except.error e
          | Except.ok (rows', rs2) => parentsLoop pt fields minc maxc rest rs2 rows')
          = Except.ok (out, rs') := h
      cases hp : parentRowsLoop pt parent fields k.toNat rs1 rows with
      | error e => rw [hp] at h2; cases h2
      | ok pr2 =>
        obtain ⟨rows2, rs2⟩ := pr2
        rw [hp] at h2
        rcases ih rs2 rows2 out rs' h2 r hr with hm | hkeq
        · exact parentRowsLoop_rows_keys pt parent fields hfld k.toNat rs1 rows rows2 rs2 hp r hm
        · exact Or.inr hkeq

theorem versionLoop_rows_keys (fields : List (String × FieldDef)) (base : Row)
    (hnd : (akeys base ++ versionNames fields).Nodup) :
    ∀ (n v : Nat) (rs : RunState) (rows out : List Row) (rs' : RunState),
      versionLoop fields base v n rs rows = Except.ok (out, rs') →
      ∀ r ∈ out, r ∈ rows ∨ akeys r = akeys base ++ versionNames fields := by
  intro n
  induction n with
  | zero =>
    intro v rs rows out rs' h r hr
    simp only [versionLoop, Except.ok.injEq, Prod.mk.injEq] at h
    exact Or.inl (h.1 ▸ hr)
  | succ k ih =>
    intro v rs rows out rs' h r hr
    simp only [versionLoop] at h
    cases hg : applyVersionFields (pyMerge [("__version__", Value.int (v : Int))] base)
        fields rs base with
    | error e => rw [hg] at h; cases h
    | ok pr =>
      obtain ⟨row, rs1⟩ := pr
      rw [hg] at h
      have hk : akeys row = akeys base ++ versionNames fields :=
        applyVersionFields_keys _ fields rs base row rs1 hg hnd
      rcases ih (v + 1) rs1 (rows ++ [row]) out rs' h r hr with hm | hkeq
      · rcases List.mem_append.mp hm with hm | hm
        · exact Or.inl hm
        · right
          rw [List.mem_singleton.mp hm]
          exact hk
      · exact Or.inr hkeq

theorem nonVersionNames_nodup (fields : List (String × FieldDef))
    (h : (fields.map Prod.fst).Nodup) : (nonVersionNames fields).Nodup :=
  h.sublist ((List.filter_sublist fields).map Prod.fst)

theorem nonVersion_append_version_nodup (fields : List (String × FieldDef))
    (h : (fields.map Prod.fst).Nodup) :
    (nonVersionNames fields ++ versionNames fields).Nodup := by
  have hperm : (fields.filter (fun p => isVersionFd p)
      ++ fields.filter (fun p => !isVersionFd p)).Perm fields :=
    List.filter_append_perm _ fields
  have hperm2 : (versionNames fields ++ nonVersionNames fields).Perm (fields.map Prod.fst) := by
    have := hperm.map Prod.fst
    simpa [versionNames, nonVersionNames] using this
  have hnd : (versionNames fields ++ nonVersionNames fields).Nodup := hperm2.nodup_iff.mpr h
  exact (List.perm_append_comm.nodup_iff).mp hnd

theorem immutableLoop_rows_keys (fields : List (String × FieldDef)) (minv maxv : Int)
    (hfld : (fields.map Prod.fst).Nodup) :
    ∀ (n : Nat) (rs : RunState) (rows out : List Row) (rs' : RunState),
      immutableLoop fields minv maxv n rs rows = Except.ok (out, rs') →
      ∀ r ∈ out, r ∈ rows ∨ akeys r = nonVersionNames fields ++ versionNames fields := by
  intro n
  induction n with
  | zero =>
    intro rs rows out rs' h r hr
    simp only [immutableLoop, Except.ok.injEq, Prod.mk.injEq] at h
    exact Or.inl (h.1 ▸ hr)
  | succ k ih =>
    intro rs rows out rs' h r hr
    simp only [immutableLoop] at h
    cases hb : buildBaseRow fields rs [] with
    | error e => rw [hb] at h; cases h
    | ok pr =>
      obtain ⟨base, rs1⟩ := pr
      rw [hb] at h
      have hbase : akeys base = nonVersionNames fields := by
        have := buildBaseRow_keys fields rs [] base rs1 hb
          (by simpa [akeys] using nonVersionNames_nodup fields hfld)
        simpa [akeys] using this
      have h2 : (match pyRandint rs1 minv maxv with
          | Except.error e => Except.error e
          | Except.ok (n, rs2) =>
            match versionLoop fields base 1 n.toNat rs2 rows with
            | Except.error e => Except.error e
            | Except.ok (rows', rs3) => immutableLoop fields minv maxv k rs3 rows')
          = Except.ok (out, rs') := h
      cases hrand : pyRandint rs1 minv maxv with
      | error e => rw [hrand] at h2; cases h2
      | ok pr2 =>
        obtain ⟨nv, rs2⟩ := pr2
        rw [hrand] at h2
        have h3 : (match versionLoop fields base 1 nv.toNat rs2 rows with
            | Except.error e => Except.error e
            | Except.ok (rows', rs3) => immutableLoop fields minv maxv k rs3 rows')
            = Except.ok (out, rs') := h2
        cases hv : versionLoop fields base 1 nv.toNat rs2 rows with
        | error e => rw [hv] at h3; cases h3
        | ok pr3 =>
          obtain ⟨rows3, rs3⟩ := pr3
          rw [hv] at h3
          have hndv : (akeys base ++ versionNames fields).Nodup := by
            rw [hbase]
            exact nonVersion_append_version_nodup fields hfld
          rcases ih rs3 rows3 out rs' h3 r hr with hm | hkeq
          · rcases versionLoop_rows_keys fields base hndv nv.toNat 1 rs2 rows rows3 rs3 hv r hm
              with hm2 | hkeq2
            · exact Or.inl hm2
            · right
              rw [hkeq2, hbase]
          · exact Or.inr hkeq

/-! Inversion of `generate_rows` per branch. -/

theorem generate_rows_master_inv (rs : RunState) (schema : Schema)
    (fields : List (String × FieldDef)) (out : List Row) (rs' : RunState)
    (hrec : schema.records = none) (hfs : schema.fields = some fields)
    (hty : schema.type = "master")
    (h : generate_rows rs schema = Except.ok (out, rs')) :
    ∃ cnt, schema.count = some cnt ∧ masterLoop fields cnt rs [] = Except.ok (out, rs') := by
  rw [generate_rows, hrec, hty, hfs] at h
  simp at h
  cases hc : schema.count with
  | none => rw [getCountE, hc] at h; simp at h
  | some cnt =>
    rw [getCountE, hc] at h
    simp at h
    exact ⟨cnt, rfl, h⟩

theorem generate_rows_trans_inv (rs : RunState) (schema : Schema)
    (fields : List (String × FieldDef)) (out : List Row) (rs' : RunState)
    (hrec : schema.records = none) (hfs : schema.fields = some fields)
    (hty : schema.type = "transactional") (hpar : schema.parent = none)
    (h : generate_rows rs schema = Except.ok (out, rs')) :
    ∃ cnt, schema.count = some cnt ∧ transLoop fields cnt rs [] = Except.ok (out, rs') := by
  rw [generate_rows, hrec, hty, hfs, hpar] at h
  simp at h
  cases hc : schema.count with
  | none => rw [getCountE, hc] at h; simp at h
  | some cnt =>
    rw [getCountE, hc] at h
    simp at h
    exact ⟨cnt, rfl, h⟩

theorem generate_rows_parent_inv (rs : RunState) (schema : Schema)
    (fields : List (String × FieldDef)) (out : List Row) (rs' : RunState) (pt : String)
    (hrec : schema.records = none) (hfs : schema.fields = some fields)
    (hty : schema.type = "immutable" ∨ schema.type = "transactional")
    (hpar : schema.parent = some pt)
    (h : generate_rows rs schema = Except.ok (out, rs')) :
    ∃ parents minc maxc, alookup rs.data pt = some parents
      ∧ rangeBoundsE (schema.count_per_parent.getD "1") = Except.ok (minc, maxc)
      ∧ parentsLoop pt fields minc maxc parents rs [] = Except.ok (out, rs') := by
  rcases hty with hty | hty <;>
  · rw [generate_rows, hrec, hty, hfs, hpar] at h
    simp at h
    cases hd : alookup rs.data pt with
    | none => rw [hd] at h; simp at h
    | some parents =>
      rw [hd] at h
      cases hb : rangeBoundsE (schema.count_per_parent.getD "1") with
      | error e => rw [hb] at h; simp at h
      | ok pr =>
        obtain ⟨minc, maxc⟩ := pr
        rw [hb] at h
        simp at h
        exact ⟨parents, minc, maxc, rfl, rfl, h⟩

theorem generate_rows_immutable_inv (rs : RunState) (schema : Schema)
    (fields : List (String × FieldDef)) (out : List Row) (rs' : RunState)
    (hrec : schema.records = none) (hfs : schema.fields = some fields)
    (hty : schema.type = "immutable") (hpar : schema.parent = none)
    (h : generate_rows rs schema = Except.ok (out, rs')) :
    ∃ minv maxv cnt, rangeBoundsE (schema.version_range.getD "1") = Except.ok (minv, maxv)
      ∧ schema.count = some cnt
      ∧ immutableLoop fields minv maxv cnt rs [] = Except.ok (out, rs') := by
  rw [generate_rows, hrec, hty, hfs, hpar] at h
  simp at h
  cases hb : rangeBoundsE (schema.version_range.getD "1") with
  | error e => rw [hb] at h; simp at h
  | ok pr =>
    obtain ⟨minv, maxv⟩ := pr
    rw [hb] at h
    cases hc : schema.count with
    | none => rw [getCountE, hc] at h; simp at h
    | some cnt =>
      rw [getCountE, hc] at h
      simp at h
      exact ⟨minv, maxv, cnt, rfl, rfl, h⟩

theorem generate_rows_pointer_inv (rs : RunState) (schema : Schema)
    (out : List Row) (rs' : RunState) (stn : String) (ks : List String) (lf : String)
    (src : List Row)
    (hrec : schema.records = none) (hty : schema.type = "pointer")
    (hst : schema.source_table = some stn) (hk : schema.key = some ks)
    (hlf : schema.latest_field = some lf) (hdata : alookup rs.data stn = some src)
    (h : generate_rows rs schema = Except.ok (out, rs')) :
    ∃ groups, groupByKeysE ks src [] = Except.ok groups
      ∧ pointerLoop lf groups = Except.ok out ∧ rs' = rs := by
  rw [generate_rows, hrec, hty, hst, hk, hlf] at h
  simp at h
  rw [hdata] at h
  have h2 : (match groupByKeysE ks src [] with
      | Except.error e => Except.error e
      | Except.ok groups =>
        match pointerLoop lf groups with
        | Except.error e => Except.error e
        | Except.ok out2 => Except.ok (out2, rs)) = Except.ok (out, rs') := h
  cases hg : groupByKeysE ks src [] with
  | error e => rw [hg] at h2; simp at h2
  | ok groups =>
    rw [hg] at h2
    have h3 : (match pointerLoop lf groups with
        | Except.error e => Except.error e
        | Except.ok out2 => Except.ok (out2, rs)) = Except.ok (out, rs') := h2
    cases hp : pointerLoop lf groups with
    | error e => rw [hp] at h3; simp at h3
    | ok rows =>
      rw [hp] at h3
      simp at h3
      exact ⟨groups, rfl, h3.1 ▸ hp, h3.2.symm⟩

/-- A `version_sequence` field definition. -/
def versionFd : FieldDef := { type := some "version_sequence" }

/-- An immutable schema declaring its `version_sequence` field *first*. -/
def c8Schema : Schema :=
  { table_name := "t8", type := "immutable", count := some 1,
    version_range := some "1",
    fields := some [("ver", versionFd),
      ("id", { type := some "const", value := some (Value.int 5) })] }

/-- C8 counterexample: the claim says every generated row's insertion order
equals the schema's declaration order, but the parent-less immutable branch
builds the base row from the non-`version_sequence` fields first and then
appends the `version_sequence` fields, so a version field declared first ends
up last: declaration order `[ver, id]`, emitted key order `[id, ver]`. -/
theorem C8_counterexample :
    (generate_rows baseState c8Schema).toOption.map (fun p => p.1.map (fun r => akeys r))
      = some [["id", "ver"]]
    ∧ (c8Schema.fields.getD []).map Prod.fst = ["ver", "id"]
    ∧ (["id", "ver"] : List String) ≠ ["ver", "id"] :=
  ⟨rfl, rfl, by decide⟩

/-- C8 amended: for master rows, parent-less transactional rows and parented
(immutable/transactional) rows, the row's field insertion order equals the
schema's field declaration order; for parent-less immutable rows it is
instead the non-`version_sequence` fields in declaration order followed by
the `version_sequence` fields in declaration order. -/
theorem C8_amended_row_key_order :
    (∀ (rs : RunState) (schema : Schema) (fields : List (String × FieldDef))
      (out : List Row) (rs' : RunState),
      schema.records = none → schema.fields = some fields →
      (fields.map Prod.fst).Nodup → schema.type = "master" →
      generate_rows rs schema = Except.ok (out, rs') →
      ∀ r ∈ out, akeys r = fields.map Prod.fst)
    ∧ (∀ (rs : RunState) (schema : Schema) (fields : List (String × FieldDef))
      (out : List Row) (rs' : RunState),
      schema.records = none → schema.fields = some fields →
      (fields.map Prod.fst).Nodup → schema.type = "transactional" →
      schema.parent = none →
      generate_rows rs schema = Except.ok (out, rs') →
      ∀ r ∈ out, akeys r = fields.map Prod.fst)
    ∧ (∀ (rs : RunState) (schema : Schema) (fields : List (String × FieldDef))
      (out : List Row) (rs' : RunState) (pt : String),
      schema.records = none → schema.fields = some fields →
      (fields.map Prod.fst).Nodup →
      (schema.type = "immutable" ∨ schema.type = "transactional") →
      schema.parent = some pt →
      generate_rows rs schema = Except.ok (out, rs') →
      ∀ r ∈ out, akeys r = fields.map Prod.fst)
    ∧ (∀ (rs : RunState) (schema : Schema) (fields : List (String × FieldDef))
      (out : List Row) (rs' : RunState),
      schema.records = none → schema.fields = some fields →
      (fields.map Prod.fst).Nodup → schema.type = "immutable" →
      schema.parent = none →
      generate_rows rs schema = Except.ok (out, rs') →
      ∀ r ∈ out, akeys r = nonVersionNames fields ++ versionNames fields) := by
  refine ⟨?_, ?_, ?_, ?_⟩
  · intro rs schema fields out rs' hrec hfs hnd hty h r hr
    obtain ⟨cnt, -, hloop⟩ := generate_rows_master_inv rs schema fields out rs' hrec hfs hty h
    rcases masterLoop_rows_keys fields hnd cnt rs [] out rs' hloop r hr with hm | hk
    · cases hm
    · exact hk
  · intro rs schema fields out rs' hrec hfs hnd hty hpar h r hr
    obtain ⟨cnt, -, hloop⟩ :=
      generate_rows_trans_inv rs schema fields out rs' hrec hfs hty hpar h
    rcases transLoop_rows_keys fields hnd cnt rs [] out rs' hloop r hr with hm | hk
    · cases hm
    · exact hk
  · intro rs schema fields out rs' pt hrec hfs hnd hty hpar h r hr
    obtain ⟨parents, minc, maxc, -, -, hloop⟩ :=
      generate_rows_parent_inv rs schema fields out rs' pt hrec hfs hty hpar h
    rcases parentsLoop_rows_keys pt fields minc maxc hnd parents rs [] out rs' hloop r hr
        with hm | hk
    · cases hm
    · exact hk
  · intro rs schema fields out rs' hrec hfs hnd hty hpar h r hr
    obtain ⟨minv, maxv, cnt, -, -, hloop⟩ :=
      generate_rows_immutable_inv rs schema fields out rs' hrec hfs hty hpar h
    rcases immutableLoop_rows_keys fields minv maxv hnd cnt rs [] out rs' hloop r hr
        with hm | hk
    · cases hm
    · exact hk

/-- A one-field master schema for the C8 witness. -/
def w8m : Schema :=
  { table_name := "w8m", type := "master", count := some 1,
    fields := some [("id", autoIncFd)] }

/-- A run state already holding the generated parent table `par`. -/
def stWithPar : RunState :=
  { baseState with data := [("par", [[("pk", Value.int 7)]])] }

theorem C8_amended_row_key_order_witness :
    (w8m.records = none ∧ w8m.fields = some [("id", autoIncFd)]
      ∧ (([("id", autoIncFd)] : List (String × FieldDef)).map Prod.fst).Nodup
      ∧ w8m.type = "master"
      ∧ (∃ out rs', generate_rows baseState w8m = Except.ok (out, rs')
          ∧ ∀ r ∈ out, akeys r = ([("id", autoIncFd)] : List (String × FieldDef)).map Prod.fst))
    ∧ (c5Child.records = none ∧ c5Child.fields = some [("cid", autoIncFd)]
      ∧ (c5Child.type = "immutable" ∨ c5Child.type = "transactional")
      ∧ c5Child.parent = some "par"
      ∧ (∃ out rs', generate_rows stWithPar c5Child = Except.ok (out, rs')
          ∧ ∀ r ∈ out, akeys r = ([("cid", autoIncFd)] : List (String × FieldDef)).map Prod.fst))
    ∧ (c8Schema.records = none ∧ c8Schema.type = "immutable" ∧ c8Schema.parent = none
      ∧ (∃ out rs', generate_rows baseState c8Schema = Except.ok (out, rs')
          ∧ ∀ r ∈ out,
              akeys r = nonVersionNames ((c8Schema.fields).getD [])
                ++ versionNames ((c8Schema.fields).getD []))) := by
  refine ⟨⟨rfl, rfl, by decide, rfl, [[("id", Value.int 1)]], _, rfl, ?_⟩,
    ⟨rfl, rfl, Or.inr rfl, rfl, [[("cid", Value.int 1)]], _, rfl, ?_⟩,
    ⟨rfl, rfl, rfl, [[("id", Value.int 5), ("ver", Value.int 1)]], _, rfl, ?_⟩⟩
  · exact C8_amended_row_key_order.1 baseState w8m [("id", autoIncFd)]
      [[("id", Value.int 1)]] _ rfl rfl (by decide) rfl rfl
  · exact C8_amended_row_key_order.2.2.1 stWithPar c5Child [("cid", autoIncFd)]
      [[("cid", Value.int 1)]] _ "par" rfl rfl (by decide) (Or.inr rfl) rfl rfl
  · exact C8_amended_row_key_order.2.2.2 baseState c8Schema
      [("ver", versionFd), ("id", { type := some "const", value := some (Value.int 5) })]
      [[("id", Value.int 5), ("ver", Value.int 1)]] _ rfl rfl (by decide) rfl rfl rfl

/-! Claim C3: the parent-less immutable versioning scheme. -/

set_option maxHeartbeats 1000000 in
/-- A non-nullable, default-free `version_sequence` field reads the version
from the context (default 1) and leaves the whole state untouched. -/
theorem generate_value_version (rs : RunState) (name : String) (fd : FieldDef)
    (ctx : Row) (hty : fd.type = some "version_sequence")
    (hnull : fd.nullable = false) (hdef : fd.default = none) :
    generate_value rs name fd ctx
      = Except.ok ((alookup ctx "__version__").getD (Value.int 1), rs) := by
  rw [generate_value, hnull]
  simp only [Bool.false_eq_true, if_false]
  rw [generate_value_core, hdef, hty]
  simp only [Option.isSome_none, Bool.false_eq_true, if_false]

/-- `random.randint` on a nonempty range: one draw, result within bounds. -/
theorem pyRandint_ok (rs : RunState) (lo hi : Int) (h : lo ≤ hi) :
    ∃ x, pyRandint rs lo hi = Except.ok (x, { rs with rngIdx := rs.rngIdx + 1 })
      ∧ lo ≤ x ∧ x ≤ hi := by
  have hnot : ¬ hi < lo := not_lt.mpr h
  have hm : 0 < (hi - lo + 1).toNat := by omega
  have hmod : (rs.rng rs.rngIdx) % (hi - lo + 1).toNat < (hi - lo + 1).toNat :=
    Nat.mod_lt _ hm
  refine ⟨lo + (((rs.rng rs.rngIdx) % (hi - lo + 1).toNat : Nat) : Int), ?_, ?_, ?_⟩
  · rw [pyRandint, if_neg hnot]
    rfl
  · have : (0 : Int) ≤ (((rs.rng rs.rngIdx) % (hi - lo + 1).toNat : Nat) : Int) :=
      Int.natCast_nonneg _
    omega
  · have : (((rs.rng rs.rngIdx) % (hi - lo + 1).toNat : Nat) : Int)
        < ((hi - lo + 1).toNat : Int) := by
      exact_mod_cast hmod
    omega

/-- Applying the version fields over a copy of the base row: the state is
untouched, non-version lookups are preserved, and every version field
receives the context's version value. -/
theorem applyVersionFields_spec (ctx : Row) :
    ∀ (fields : List (String × FieldDef)) (rs : RunState) (row : Row),
      (∀ name fd, (name, fd) ∈ fields → fd.type = some "version_sequence" →
        fd.nullable = false ∧ fd.default = none) →
      (akeys row ++ versionNames fields).Nodup →
      ∃ out, applyVersionFields ctx fields rs row = Except.ok (out, rs)
        ∧ (∀ n, n ∉ versionNames fields → alookup out n = alookup row n)
        ∧ (∀ n, n ∈ versionNames fields →
            alookup out n = some ((alookup ctx "__version__").getD (Value.int 1))) := by
  intro fields
  induction fields with
  | nil =>
    intro rs row _ _
    refine ⟨row, rfl, fun n _ => rfl, fun n hn => ?_⟩
    simp [versionNames] at hn
  | cons p rest ih =>
    obtain ⟨name, fd⟩ := p
    intro rs row hvf hnd
    by_cases hv : fd.type = some "version_sequence"
    · have hvn : versionNames ((name, fd) :: rest) = name :: versionNames rest := by
        simp [versionNames, List.filter_cons, isVersionFd, hv]
      obtain ⟨hnull, hdef⟩ := hvf name fd (List.mem_cons_self _ _) hv
      rw [hvn] at hnd
      obtain ⟨hnotin, hnd2⟩ := nodup_shift (akeys row) name (versionNames rest) hnd
      have hnvr : name ∉ versionNames rest := by
        intro hmem
        exact (List.disjoint_of_nodup_append hnd2) (by simp) hmem
      have hrow' := akeys_aupsert_not_mem row name
        ((alookup ctx "__version__").getD (Value.int 1)) hnotin
      have hnd' : (akeys (aupsert row name ((alookup ctx "__version__").getD (Value.int 1)))
          ++ versionNames rest).Nodup := by
        rw [hrow']
        exact hnd2
      obtain ⟨out, hout, hpres, hvers⟩ :=
        ih rs (aupsert row name ((alookup ctx "__version__").getD (Value.int 1)))
          (fun n f hm ht => hvf n f (List.mem_cons_of_mem _ hm) ht) hnd'
      refine ⟨out, ?_, ?_, ?_⟩
      · simp only [applyVersionFields, if_pos hv,
          generate_value_version rs name fd ctx hv hnull hdef]
        exact hout
      · intro n hn
        rw [hvn] at hn
        have hn1 : n ≠ name := fun he => hn (he ▸ List.mem_cons_self _ _)
        have hn2 : n ∉ versionNames rest := fun hm => hn (List.mem_cons_of_mem _ hm)
        rw [hpres n hn2, alookup_aupsert_ne row name n _ (fun he => hn1 he.symm)]
      · intro n hn
        rw [hvn] at hn
        rcases List.mem_cons.mp hn with he | hm
        · rw [he, hpres name hnvr, alookup_aupsert_self]
        · exact hvers n hm
    · have hvn : versionNames ((name, fd) :: rest) = versionNames rest := by
        simp [versionNames, List.filter_cons, isVersionFd, hv]
      rw [hvn] at hnd
      obtain ⟨out, hout, hpres, hvers⟩ :=
        ih rs row (fun n f hm ht => hvf n f (List.mem_cons_of_mem _ hm) ht) hnd
      refine ⟨out, ?_, ?_, ?_⟩
      · simp only [applyVersionFields, if_neg hv]
        exact hout
      · intro n hn
        rw [hvn] at hn
        exact hpres n hn
      · intro n hn
        rw [hvn] at hn
        exact hvers n hn

/-- The version loop of one immutable entity: appends one row per version,
each a copy of the base with the version fields set to `v`, `v+1`, …; the
state is untouched (non-nullable version fields draw nothing). -/
theorem versionLoop_spec (fields : List (String × FieldDef)) (base : Row)
    (hvf : ∀ name fd, (name, fd) ∈ fields → fd.type = some "version_sequence" →
      fd.nullable = false ∧ fd.default = none)
    (hnd : (akeys base ++ versionNames fields).Nodup)
    (hctx : "__version__" ∉ akeys base) :
    ∀ (rem v : Nat) (rs : RunState) (rows : List Row),
      ∃ blk, versionLoop fields base v rem rs rows = Except.ok (rows ++ blk, rs)
        ∧ blk.length = rem
        ∧ ∀ j, j < rem → ∃ r, blk[j]? = some r
            ∧ (∀ n ∈ versionNames fields, alookup r n = some (Value.int ((v : Int) + j)))
            ∧ (∀ n, n ∉ versionNames fields → alookup r n = alookup base n) := by
  intro rem
  induction rem with
  | zero =>
    intro v rs rows
    exact ⟨[], by simp [versionLoop], rfl, fun j hj => absurd hj (Nat.not_lt_zero j)⟩
  | succ k ih =>
    intro v rs rows
    have hctxv : alookup (pyMerge [("__version__", Value.int (v : Int))] base) "__version__"
        = some (Value.int (v : Int)) := by
      rw [alookup_pyMerge_not_mem _ base _ hctx]
      rfl
    obtain ⟨row, happ, hpres, hvers⟩ :=
      applyVersionFields_spec (pyMerge [("__version__", Value.int (v : Int))] base)
        fields rs base hvf hnd
    obtain ⟨blk, hloop, hlen, hprop⟩ := ih (v + 1) rs (rows ++ [row])
    refine ⟨row :: blk, ?_, by simp [hlen], ?_⟩
    · simp only [versionLoop, happ]
      rw [hloop]
      simp
    · intro j hj
      cases j with
      | zero =>
        refine ⟨row, by simp, ?_, hpres⟩
        intro n hn
        rw [hvers n hn, hctxv]
        simp
      | succ j' =>
        obtain ⟨r, hr, hrv, hrp⟩ := hprop j' (by omega)
        refine ⟨r, by simpa using hr, ?_, hrp⟩
        intro n hn
        rw [hrv n hn]
        congr 2
        push_cast
        ring

/-- The entity loop of the parent-less immutable branch, inverted: a
successful run splits into one block of rows per entity, each block holding
N ∈ [minv, maxv] copies of that entity's base row whose version fields run
1, …, N in emission order. -/
theorem immutableLoop_blocks (fields : List (String × FieldDef)) (minv maxv : Int)
    (hvf : ∀ name fd, (name, fd) ∈ fields → fd.type = some "version_sequence" →
      fd.nullable = false ∧ fd.default = none)
    (hndf : (fields.map Prod.fst).Nodup)
    (hnov : "__version__" ∉ fields.map Prod.fst)
    (h0 : 0 ≤ minv) (hle : minv ≤ maxv) :
    ∀ (cnt : Nat) (rs : RunState) (rows out : List Row) (rs' : RunState),
      immutableLoop fields minv maxv cnt rs rows = Except.ok (out, rs') →
      ∃ blocks : List (List Row), out = rows ++ blocks.flatten ∧ blocks.length = cnt
        ∧ ∀ blk ∈ blocks, ∃ (N : Nat) (base : Row),
            minv ≤ (N : Int) ∧ (N : Int) ≤ maxv ∧ blk.length = N
            ∧ ∀ j, j < N → ∃ r, blk[j]? = some r
                ∧ (∀ n ∈ versionNames fields, alookup r n = some (Value.int ((j : Int) + 1)))
                ∧ (∀ n, n ∉ versionNames fields → alookup r n = alookup base n) := by
  intro cnt
  induction cnt with
  | zero =>
    intro rs rows out rs' h
    simp only [immutableLoop, Except.ok.injEq, Prod.mk.injEq] at h
    exact ⟨[], by simp [h.1], rfl, fun blk hblk => absurd hblk (List.not_mem_nil blk)⟩
  | succ k ih =>
    intro rs rows out rs' h
    simp only [immutableLoop] at h
    cases hb : buildBaseRow fields rs [] with
    | error e => rw [hb] at h; cases h
    | ok pr =>
      obtain ⟨base, rs1⟩ := pr
      rw [hb] at h
      have hbase : akeys base = nonVersionNames fields := by
        have := buildBaseRow_keys fields rs [] base rs1 hb
          (by simpa [akeys] using nonVersionNames_nodup fields hndf)
        simpa [akeys] using this
      have hctx : "__version__" ∉ akeys base := by
        rw [hbase]
        intro hmem
        exact hnov (((List.filter_sublist fields).map Prod.fst).mem hmem)
      have hndb : (akeys base ++ versionNames fields).Nodup := by
        rw [hbase]
        exact nonVersion_append_version_nodup fields hndf
      obtain ⟨x, hx, hx1, hx2⟩ := pyRandint_ok rs1 minv maxv hle
      have h2 : (match pyRandint rs1 minv maxv with
          | Except.error e => Except.error e
          | Except.ok (n, rs2) =>
            match versionLoop fields base 1 n.toNat rs2 rows with
            | Except.error e => Except.error e
            | Except.ok (rows', rs3) => immutableLoop fields minv maxv k rs3 rows')
          = Except.ok (out, rs') := h
      rw [hx] at h2
      obtain ⟨blk, hloop, hlen, hprop⟩ :=
        versionLoop_spec fields base hvf hndb hctx x.toNat 1
          { rs1 with rngIdx := rs1.rngIdx + 1 } rows
      have h3 : (match versionLoop fields base 1 x.toNat
            { rs1 with rngIdx := rs1.rngIdx + 1 } rows with
          | Except.error e => Except.error e
          | Except.ok (rows', rs3) => immutableLoop fields minv maxv k rs3 rows')
          = Except.ok (out, rs') := h2
      rw [hloop] at h3
      obtain ⟨blocks, hout, hblen, hbprop⟩ :=
        ih { rs1 with rngIdx := rs1.rngIdx + 1 } (rows ++ blk) out rs' h3
      refine ⟨blk :: blocks, by simp [hout], by simp [hblen], ?_⟩
      intro b hb2
      rcases List.mem_cons.mp hb2 with he | hm
      · subst he
        refine ⟨x.toNat, base, ?_, ?_, hlen, ?_⟩
        · rwa [Int.toNat_of_nonneg (by omega)]
        · rwa [Int.toNat_of_nonneg (by omega)]
        · intro j hj
          obtain ⟨r, hr, hrv, hrp⟩ := hprop j hj
          refine ⟨r, hr, ?_, hrp⟩
          intro n hn
          rw [hrv n hn]
          congr 2
          push_cast
          ring
      · exact hbprop b hm

/-- C3 (amended): for a parent-less immutable schema with version range
`a~b` (`0 ≤ a ≤ b`), duplicate-free field names not containing
`"__version__"`, and `version_sequence` fields that are neither nullable nor
defaulted, a successful generation emits one block of rows per `count`
entity; each block holds N rows for some N ∈ [a, b], its `version_sequence`
fields run exactly 1, …, N in emission order, and every non-version field
holds the identical base value in all N rows of the block. -/
theorem C3_immutable_versioning (rs : RunState) (schema : Schema)
    (fields : List (String × FieldDef)) (out : List Row) (rs' : RunState)
    (cnt : Nat) (a b : Int)
    (hrec : schema.records = none) (hfs : schema.fields = some fields)
    (hty : schema.type = "immutable") (hpar : schema.parent = none)
    (hcnt : schema.count = some cnt)
    (hvr : rangeBoundsE (schema.version_range.getD "1") = Except.ok (a, b))
    (ha : 0 ≤ a) (hab : a ≤ b)
    (hnd : (fields.map Prod.fst).Nodup)
    (hnov : "__version__" ∉ fields.map Prod.fst)
    (hvf : ∀ name fd, (name, fd) ∈ fields → fd.type = some "version_sequence" →
      fd.nullable = false ∧ fd.default = none)
    (hrun : generate_rows rs schema = Except.ok (out, rs')) :
    ∃ blocks : List (List Row),
      out = blocks.flatten
      ∧ blocks.length = cnt
      ∧ ∀ blk ∈ blocks, ∃ (N : Nat) (base : Row),
          a ≤ (N : Int) ∧ (N : Int) ≤ b ∧ blk.length = N
          ∧ ∀ j, j < N → ∃ r, blk[j]? = some r
              ∧ (∀ n ∈ versionNames fields, alookup r n = some (Value.int ((j : Int) + 1)))
              ∧ (∀ n, n ∉ versionNames fields → alookup r n = alookup base n) := by
  obtain ⟨minv, maxv, cnt2, hvr2, hcnt2, hloop⟩ :=
    generate_rows_immutable_inv rs schema fields out rs' hrec hfs hty hpar hrun
  rw [hvr] at hvr2
  obtain ⟨hma, hmb⟩ : a = minv ∧ b = maxv := by
    have := Except.ok.inj hvr2
    exact ⟨congrArg Prod.fst this, congrArg Prod.snd this⟩
  subst hma
  subst hmb
  rw [hcnt] at hcnt2
  obtain rfl : cnt = cnt2 := Option.some.inj hcnt2
  obtain ⟨blocks, hout, hblen, hprop⟩ :=
    immutableLoop_blocks fields a b hvf hnd hnov ha hab cnt rs [] out rs' hloop
  exact ⟨blocks, by simpa using hout, hblen, hprop⟩

/-- A nullable `version_sequence` field. -/
def nullableVerFd : FieldDef := { type := some "version_sequence", nullable := true }

/-- Immutable schema whose version field is nullable. -/
def c3NullableSchema : Schema :=
  { table_name := "t3", type := "immutable", count := some 1,
    version_range := some "2~2",
    fields := some [("id", { type := some "const", value := some (Value.int 5) }),
      ("ver", nullableVerFd)] }

/-- A run state whose `random` stream always returns 0, so every nullable
draw hits the 10% null branch. -/
def zeroState : RunState :=
  { rng := constFun 0, entropy := constFun 0, faker := constFun 0,
    todayFmt := fun s => s }

/-- C3 counterexample: the claim quantifies over *every* parent-less
immutable schema, but a nullable `version_sequence` field can draw null
(probability 0.1 per row), so the emitted version values need not be
1, …, N: here both rows of the single entity (N = 2) carry `null` instead of
1 and 2. -/
theorem C3_counterexample :
    (generate_rows zeroState c3NullableSchema).toOption.map Prod.fst
      = some [[("id", Value.int 5), ("ver", Value.null)],
          [("id", Value.int 5), ("ver", Value.null)]]
    ∧ Value.null ≠ Value.int 1 :=
  ⟨rfl, by decide⟩

/-- The field list of the C3 witness schema. -/
def c3GoodFields : List (String × FieldDef) :=
  [("id", { type := some "const", value := some (Value.int 5) }), ("ver", versionFd)]

/-- A well-behaved immutable schema for the C3 witness. -/
def c3GoodSchema : Schema :=
  { table_name := "t3g", type := "immutable", count := some 2,
    version_range := some "1~3", fields := some c3GoodFields }

theorem C3_immutable_versioning_witness :
    (c3GoodSchema.records = none
      ∧ c3GoodSchema.fields = some c3GoodFields
      ∧ c3GoodSchema.type = "immutable" ∧ c3GoodSchema.parent = none
      ∧ c3GoodSchema.count = some 2
      ∧ rangeBoundsE (c3GoodSchema.version_range.getD "1") = Except.ok (1, 3)
      ∧ (0 : Int) ≤ 1 ∧ (1 : Int) ≤ 3
      ∧ (c3GoodFields.map Prod.fst).Nodup
      ∧ "__version__" ∉ c3GoodFields.map Prod.fst
      ∧ (∀ name fd, (name, fd) ∈ c3GoodFields → fd.type = some "version_sequence" →
          fd.nullable = false ∧ fd.default = none))
    ∧ ∃ out rs',
        generate_rows baseState c3GoodSchema = Except.ok (out, rs')
        ∧ ∃ blocks : List (List Row),
            out = blocks.flatten
            ∧ blocks.length = 2
            ∧ ∀ blk ∈ blocks, ∃ (N : Nat) (base : Row),
                (1 : Int) ≤ (N : Int) ∧ (N : Int) ≤ 3 ∧ blk.length = N
                ∧ ∀ j, j < N → ∃ r, blk[j]? = some r
                    ∧ (∀ n ∈ versionNames c3GoodFields,
                        alookup r n = some (Value.int ((j : Int) + 1)))
                    ∧ (∀ n, n ∉ versionNames c3GoodFields →
                        alookup r n = alookup base n) := by
  have hvf : ∀ name fd, (name, fd) ∈ c3GoodFields → fd.type = some "version_sequence" →
      fd.nullable = false ∧ fd.default = none := by
    intro n f hm ht
    fin_cases hm
    · exact absurd ht (by decide)
    · exact ⟨rfl, rfl⟩
  refine ⟨⟨rfl, rfl, rfl, rfl, rfl, rfl, by decide, by decide, by decide, by decide, hvf⟩, ?_⟩
  refine ⟨_, _, rfl, ?_⟩
  exact C3_immutable_versioning baseState c3GoodSchema c3GoodFields
    _ _ 2 1 3 rfl rfl rfl rfl rfl rfl (by decide) (by decide) (by decide) (by decide)
    hvf rfl

/-! Claim C4: the pointer branch. -/

/-- The pure grouping key of a row (meaningful when all key fields are
present). -/
def rowKeyOf (ks : List String) (r : Row) : List Value :=
  ks.map (fun kf => (alookup r kf).getD Value.null)

theorem rowKeyE_eq_pure : ∀ (ks : List String) (r : Row),
    (∀ kf ∈ ks, (alookup r kf).isSome) →
    rowKeyE ks r = Except.ok (rowKeyOf ks r) := by
  intro ks
  induction ks with
  | nil => intro r _; rfl
  | cons k ks' ih =>
    intro r hk
    obtain ⟨v, hv⟩ := Option.isSome_iff_exists.mp (hk k (List.mem_cons_self _ _))
    have hrest := ih r (fun kf hm => hk kf (List.mem_cons_of_mem _ hm))
    simp only [rowKeyE, hv, hrest]
    simp [rowKeyOf, hv]

theorem addToGroup_keys : ∀ (acc : List (List Value × List Row)) (k : List Value) (r : Row),
    (addToGroup acc k r).map Prod.fst = addUniq (acc.map Prod.fst) k := by
  intro acc
  induction acc with
  | nil => intro k r; simp [addToGroup, addUniq]
  | cons p rest ih =>
    intro k r
    obtain ⟨k1, grp1⟩ := p
    by_cases h : k1 = k
    · subst h
      simp [addToGroup, addUniq]
    · simp only [addToGroup, if_neg h, List.map_cons, ih]
      have h' : ¬ k = k1 := fun he => h he.symm
      by_cases hm : k ∈ rest.map Prod.fst
      · simp [addUniq, hm, h']
      · simp [addUniq, hm, h']

theorem addToGroup_not_mem (acc : List (List Value × List Row)) (k : List Value) (r : Row)
    (h : k ∉ acc.map Prod.fst) : addToGroup acc k r = acc ++ [(k, [r])] := by
  induction acc with
  | nil => rfl
  | cons p rest ih =>
    obtain ⟨k1, grp1⟩ := p
    have h1 : k1 ≠ k := fun he => h (by simp [he])
    have h2 : k ∉ rest.map Prod.fst := fun hm => h (by simp [hm])
    simp [addToGroup, h1, ih h2]

theorem addToGroup_mem_entries (acc : List (List Value × List Row)) (k : List Value)
    (r : Row) (hnd : (acc.map Prod.fst).Nodup) :
    ∀ kg, kg ∈ addToGroup acc k r →
      (kg ∈ acc ∧ kg.1 ≠ k) ∨ (∃ grp, (k, grp) ∈ acc ∧ kg = (k, grp ++ [r]))
      ∨ (k ∉ acc.map Prod.fst ∧ kg = (k, [r])) := by
  induction acc with
  | nil =>
    intro kg hm
    simp only [addToGroup, List.mem_singleton] at hm
    exact Or.inr (Or.inr ⟨by simp, hm⟩)
  | cons p rest ih =>
    intro kg hm
    obtain ⟨k1, grp1⟩ := p
    by_cases h : k1 = k
    · subst h
      rw [show addToGroup ((k1, grp1) :: rest) k1 r = (k1, grp1 ++ [r]) :: rest from by
        simp [addToGroup]] at hm
      rcases List.mem_cons.mp hm with he | hm2
      · exact Or.inr (Or.inl ⟨grp1, List.mem_cons_self _ _, he⟩)
      · left
        refine ⟨List.mem_cons_of_mem _ hm2, ?_⟩
        intro he
        have hmm : kg.1 ∈ rest.map Prod.fst := List.mem_map_of_mem Prod.fst hm2
        rw [he] at hmm
        simp only [List.map_cons, List.nodup_cons] at hnd
        exact hnd.1 hmm
    · rw [show addToGroup ((k1, grp1) :: rest) k r = (k1, grp1) :: addToGroup rest k r from by
        simp [addToGroup, h]] at hm
      simp only [List.map_cons, List.nodup_cons] at hnd
      rcases List.mem_cons.mp hm with he | hm2
      · exact Or.inl ⟨by rw [he]; exact List.mem_cons_self _ _, by rw [he]; exact h⟩
      · rcases ih hnd.2 kg hm2 with ⟨hmem, hne⟩ | ⟨grp, hmem, he⟩ | ⟨hnm, he⟩
        · exact Or.inl ⟨List.mem_cons_of_mem _ hmem, hne⟩
        · exact Or.inr (Or.inl ⟨grp, List.mem_cons_of_mem _ hmem, he⟩)
        · refine Or.inr (Or.inr ⟨?_, he⟩)
          intro hmm
          rw [List.map_cons] at hmm
          rcases List.mem_cons.mp hmm with he2 | hm3
          · exact h he2.symm
          · exact hnm hm3

/-- The invariant of the grouping fold: keys are the distinct row keys in
first-seen order, each group holds exactly the processed rows with its key in
source order, and groups are nonempty. -/
def GroupInv (ks : List String) (processed : List Row)
    (acc : List (List Value × List Row)) : Prop :=
  (acc.map Prod.fst).Nodup
  ∧ acc.map Prod.fst = processed.foldl (fun l r2 => addUniq l (rowKeyOf ks r2)) []
  ∧ (∀ kg ∈ acc, kg.2 = processed.filter (fun r2 => rowKeyOf ks r2 = kg.1))
  ∧ (∀ k, k ∉ acc.map Prod.fst →
      processed.filter (fun r2 => rowKeyOf ks r2 = k) = [])
  ∧ (∀ kg ∈ acc, kg.2 ≠ [])

theorem groupInv_nil (ks : List String) : GroupInv ks [] [] :=
  ⟨List.nodup_nil, rfl, fun kg hm => absurd hm (List.not_mem_nil kg),
    fun _ _ => rfl, fun kg hm => absurd hm (List.not_mem_nil kg)⟩

theorem groupInv_step (ks : List String) (processed : List Row)
    (acc : List (List Value × List Row)) (r : Row) (hinv : GroupInv ks processed acc) :
    GroupInv ks (processed ++ [r]) (addToGroup acc (rowKeyOf ks r) r) := by
  obtain ⟨i1, i2, i3, i4, i5⟩ := hinv
  have hkeys := addToGroup_keys acc (rowKeyOf ks r) r
  have hfoldstep : (processed ++ [r]).foldl (fun l r2 => addUniq l (rowKeyOf ks r2)) []
      = addUniq (processed.foldl (fun l r2 => addUniq l (rowKeyOf ks r2)) []) (rowKeyOf ks r) := by
    rw [List.foldl_append]
    rfl
  refine ⟨?_, ?_, ?_, ?_, ?_⟩
  · rw [hkeys]
    by_cases hm : rowKeyOf ks r ∈ acc.map Prod.fst
    · rw [addUniq, if_pos hm]
      exact i1
    · rw [addUniq, if_neg hm]
      simp [List.nodup_append, i1, hm]
  · rw [hkeys, hfoldstep, i2]
  · intro kg hm
    rcases addToGroup_mem_entries acc (rowKeyOf ks r) r i1 kg hm
        with ⟨hmem, hne⟩ | ⟨grp, hmem, he⟩ | ⟨hnm, he⟩
    · rw [List.filter_append, i3 kg hmem]
      have hne' : ¬ rowKeyOf ks r = kg.1 := fun h => hne h.symm
      simp [hne']
    · rw [he, List.filter_append]
      have h1 : grp = processed.filter (fun r2 => rowKeyOf ks r2 = (rowKeyOf ks r)) := by
        have := i3 (rowKeyOf ks r, grp) hmem
        simpa using this
      simp [← h1]
    · rw [he, List.filter_append]
      have h1 := i4 (rowKeyOf ks r) hnm
      simp [h1]
  · intro k hk
    rw [hkeys] at hk
    have hk1 : k ∉ acc.map Prod.fst := by
      intro hmm
      apply hk
      by_cases hm : rowKeyOf ks r ∈ acc.map Prod.fst
      · rw [addUniq, if_pos hm]; exact hmm
      · rw [addUniq, if_neg hm]; exact List.mem_append_left _ hmm
    have hk2 : rowKeyOf ks r ≠ k := by
      intro he
      apply hk
      by_cases hm : rowKeyOf ks r ∈ acc.map Prod.fst
      · rw [addUniq, if_pos hm]; exact he ▸ hm
      · rw [addUniq, if_neg hm]; rw [← he]; simp
    rw [List.filter_append, i4 k hk1]
    simp [hk2]
  · intro kg hm
    rcases addToGroup_mem_entries acc (rowKeyOf ks r) r i1 kg hm
        with ⟨hmem, -⟩ | ⟨grp, -, he⟩ | ⟨-, he⟩
    · exact i5 kg hmem
    · rw [he]; simp
    · rw [he]; simp

theorem groupFold_inv (ks : List String) :
    ∀ (todo processed : List Row) (acc : List (List Value × List Row)),
      GroupInv ks processed acc →
      GroupInv ks (processed ++ todo)
        (todo.foldl (fun a r => addToGroup a (rowKeyOf ks r) r) acc) := by
  intro todo
  induction todo with
  | nil => intro processed acc h; simpa using h
  | cons r rest ih =>
    intro processed acc h
    have hstep := groupInv_step ks processed acc r h
    have hres := ih (processed ++ [r]) (addToGroup acc (rowKeyOf ks r) r) hstep
    have heq : processed ++ [r] ++ rest = processed ++ r :: rest := by simp
    rw [heq] at hres
    exact hres

/-- Under key-field presence, the grouping loop equals the pure fold. -/
theorem groupByKeysE_eq_fold (ks : List String) :
    ∀ (src : List Row) (acc : List (List Value × List Row)),
      (∀ r ∈ src, ∀ kf ∈ ks, (alookup r kf).isSome) →
      groupByKeysE ks src acc
        = Except.ok (src.foldl (fun a r => addToGroup a (rowKeyOf ks r) r) acc) := by
  intro src
  induction src with
  | nil => intro acc _; rfl
  | cons r rest ih =>
    intro acc hk
    have hr := rowKeyE_eq_pure ks r (hk r (List.mem_cons_self _ _))
    simp only [groupByKeysE, hr]
    exact ih (addToGroup acc (rowKeyOf ks r) r)
      (fun r2 hm => hk r2 (List.mem_cons_of_mem _ hm))

/-- How the head of the descending insertion sort evolves: a fold that
replaces the current head only when it sees a strictly greater key, i.e. a
max-scan that keeps the earliest maximum. -/
def scanMax (h : Value × Row) : List (Value × Row) → Value × Row
  | [] => h
  | p :: rest => scanMax (if valueLt h.1 p.1 then p else h) rest

theorem foldl_insDesc_head : ∀ (rest : List (Value × Row)) (h : Value × Row)
    (tl : List (Value × Row)),
    ∃ tl2, rest.foldl (fun acc p => insDesc p acc) (h :: tl)
      = scanMax h rest :: tl2 := by
  intro rest
  induction rest with
  | nil => intro h tl; exact ⟨tl, rfl⟩
  | cons p rest ih =>
    intro h tl
    rw [List.foldl_cons]
    by_cases hlt : valueLt h.1 p.1 = true
    · rw [show insDesc p (h :: tl) = p :: h :: tl from by simp [insDesc, hlt]]
      obtain ⟨tl2, he⟩ := ih p (h :: tl)
      exact ⟨tl2, by
        rw [he, show scanMax h (p :: rest) = scanMax p rest from by simp [scanMax, hlt]]⟩
    · rw [show insDesc p (h :: tl) = h :: insDesc p tl from by simp [insDesc, hlt]]
      obtain ⟨tl2, he⟩ := ih h (insDesc p tl)
      exact ⟨tl2, by
        rw [he, show scanMax h (p :: rest) = scanMax h rest from by simp [scanMax, hlt]]⟩

theorem pySortDesc_cons (p : Value × Row) (rest : List (Value × Row)) :
    ∃ tl, pySortDesc (p :: rest) = scanMax p rest :: tl := by
  rw [pySortDesc, List.foldl_cons]
  exact foldl_insDesc_head rest p []

/-- All sort keys in a decorated list are integers (the homogeneity Python
relies on when comparing `latest_field` values). -/
def IntKeyed (l : List (Value × Row)) : Prop :=
  ∀ q ∈ l, ∃ n : Int, q.1 = Value.int n

theorem scanMax_spec : ∀ (rest : List (Value × Row)) (p : Value × Row),
    IntKeyed (p :: rest) →
    ∃ pre post, p :: rest = pre ++ scanMax p rest :: post
      ∧ (∀ q ∈ pre, valueLt q.1 (scanMax p rest).1 = true)
      ∧ (∀ q ∈ p :: rest, valueLt (scanMax p rest).1 q.1 = false) := by
  intro rest
  induction rest with
  | nil =>
    intro p hik
    obtain ⟨a, ha⟩ := hik p (List.mem_cons_self _ _)
    refine ⟨[], [], rfl, fun q hq => absurd hq (List.not_mem_nil q), ?_⟩
    intro q hq
    rcases List.mem_cons.mp hq with he | hq2
    · subst he
      show valueLt (scanMax q []).1 q.1 = false
      rw [show scanMax q [] = q from rfl, ha]
      simp [valueLt]
    · exact absurd hq2 (List.not_mem_nil q)
  | cons q0 rest ih =>
    intro p hik
    have hikq : IntKeyed (q0 :: rest) := fun x hx => hik x (List.mem_cons_of_mem _ hx)
    have hikp : IntKeyed (p :: rest) := by
      intro x hx
      rcases List.mem_cons.mp hx with he | hx2
      · exact hik x (by rw [he]; exact List.mem_cons_self _ _)
      · exact hik x (List.mem_cons_of_mem _ (List.mem_cons_of_mem _ hx2))
    obtain ⟨a, ha⟩ := hik p (List.mem_cons_self _ _)
    obtain ⟨b, hb⟩ := hik q0 (List.mem_cons_of_mem _ (List.mem_cons_self _ _))
    by_cases hlt : valueLt p.1 q0.1 = true
    · have hunf : scanMax p (q0 :: rest) = scanMax q0 rest := by simp [scanMax, hlt]
      rw [hunf]
      obtain ⟨pre, post, hdec, hpre, hmax⟩ := ih q0 hikq
      have hm : scanMax q0 rest ∈ q0 :: rest := by
        rw [hdec]; exact List.mem_append_right _ (List.mem_cons_self _ _)
      obtain ⟨c, hc⟩ := hikq _ hm
      have hbc : ¬ c < b := by
        have hx := hmax q0 (List.mem_cons_self _ _)
        rw [hc, hb] at hx
        simpa [valueLt] using hx
      have hab : a < b := by
        rw [ha, hb] at hlt
        simpa [valueLt] using hlt
      refine ⟨p :: pre, post, ?_, ?_, ?_⟩
      · rw [List.cons_append, ← hdec]
      · intro x hx
        rcases List.mem_cons.mp hx with he | hx2
        · rw [he, ha, hc]
          simp only [valueLt, decide_eq_true_eq]
          omega
        · exact hpre x hx2
      · intro x hx
        rcases List.mem_cons.mp hx with he | hx2
        · rw [he, hc, ha]
          simp only [valueLt, decide_eq_false_iff_not]
          omega
        · exact hmax x hx2
    · rw [Bool.not_eq_true] at hlt
      have hunf : scanMax p (q0 :: rest) = scanMax p rest := by simp [scanMax, hlt]
      rw [hunf]
      obtain ⟨pre, post, hdec, hpre, hmax⟩ := ih p hikp
      have hba : ¬ a < b := by
        rw [ha, hb] at hlt
        simpa [valueLt] using hlt
      cases pre with
      | nil =>
        simp only [List.nil_append] at hdec
        rw [List.cons.injEq] at hdec
        obtain ⟨hpm, hrp⟩ := hdec
        refine ⟨[], q0 :: rest, ?_, fun q hq => absurd hq (List.not_mem_nil q), ?_⟩
        · rw [List.nil_append, ← hpm, hrp]
        · intro x hx
          rcases List.mem_cons.mp hx with he | hx2
          · rw [he, ← hpm, ha]
            simp [valueLt]
          · rcases List.mem_cons.mp hx2 with he2 | hx3
            · rw [he2, ← hpm]
              exact hlt
            · exact hmax x (List.mem_cons_of_mem _ hx3)
      | cons x0 pre' =>
        rw [List.cons_append, List.cons.injEq] at hdec
        obtain ⟨hx0, hrest⟩ := hdec
        have hpmem : p ∈ x0 :: pre' := by rw [← hx0]; exact List.mem_cons_self _ _
        have hm2 : scanMax p rest ∈ p :: rest := by
          have hmm : scanMax p rest ∈ pre' ++ scanMax p rest :: post :=
            List.mem_append_right _ (List.mem_cons_self _ _)
          rw [← hrest] at hmm
          exact List.mem_cons_of_mem _ hmm
        obtain ⟨c, hc⟩ := hikp _ hm2
        have hac : a < c := by
          have hx := hpre p hpmem
          rw [ha, hc] at hx
          simpa [valueLt] using hx
        refine ⟨p :: q0 :: pre', post, ?_, ?_, ?_⟩
        · simp only [List.cons_append]
          conv_lhs => rw [hrest]
        · intro x hx
          rcases List.mem_cons.mp hx with he | hx2
          · rw [he]
            exact hpre p hpmem
          · rcases List.mem_cons.mp hx2 with he2 | hx3
            · rw [he2, hb, hc]
              simp only [valueLt, decide_eq_true_eq]
              omega
            · exact hpre x (List.mem_cons_of_mem _ hx3)
        · intro x hx
          rcases List.mem_cons.mp hx with he | hx2
          · rw [he]
            exact hmax p (List.mem_cons_self _ _)
          · rcases List.mem_cons.mp hx2 with he2 | hx3
            · rw [he2, hc, hb]
              simp only [valueLt, decide_eq_false_iff_not]
              omega
            · exact hmax x (List.mem_cons_of_mem _ hx3)

/-- Decorate a row with its sort key, the value at `latest_field` (the `key=`
extraction of `sorted`). -/
def keyDecor (lf : String) (r : Row) : Value × Row :=
  ((alookup r lf).getD Value.null, r)

theorem keyedVersionsE_ok : ∀ (grp : List Row) (lf : String),
    (∀ r ∈ grp, (alookup r lf).isSome) →
    keyedVersionsE lf grp = Except.ok (grp.map (keyDecor lf)) := by
  intro grp
  induction grp with
  | nil => intro lf _; rfl
  | cons r rest ih =>
    intro lf hp
    have h1 := hp r (List.mem_cons_self _ _)
    cases hv : alookup r lf with
    | none => rw [hv] at h1; simp at h1
    | some v =>
      rw [show keyedVersionsE lf (r :: rest)
          = (match alookup r lf with
             | none => Except.error "KeyError: latest_field"
             | some v2 =>
               match keyedVersionsE lf rest with
               | Except.error e => Except.error e
               | Except.ok ps => Except.ok ((v2, r) :: ps)) from rfl]
      rw [hv, ih lf (fun x hx => hp x (List.mem_cons_of_mem _ hx))]
      simp [keyDecor, hv]

theorem keyDecor_eq_of_mem (lf : String) (grp : List Row)
    (q : Value × Row) (hq : q ∈ grp.map (keyDecor lf)) :
    q = keyDecor lf q.2 ∧ q.2 ∈ grp := by
  obtain ⟨r, hr, he⟩ := List.mem_map.mp hq
  subst he
  exact ⟨rfl, hr⟩

/-- `sel` occurs in `grp`, every row before it has a strictly smaller
`latest_field` value, and no row of `grp` has a strictly greater one: `sel` is
the earliest row attaining the maximum `latest_field` value. -/
def selectsLatest (lf : String) (grp : List Row) (sel : Row) : Prop :=
  ∃ pre post, grp = pre ++ sel :: post
    ∧ (∀ r ∈ pre, ∀ a b : Int, alookup r lf = some (Value.int a) →
        alookup sel lf = some (Value.int b) → a < b)
    ∧ (∀ r ∈ grp, ∀ a b : Int, alookup sel lf = some (Value.int a) →
        alookup r lf = some (Value.int b) → b ≤ a)

theorem group_select (lf : String) (r0 : Row) (grp' : List Row)
    (hp : ∀ r ∈ r0 :: grp', ∃ n : Int, alookup r lf = some (Value.int n)) :
    ∃ sel tl,
      keyedVersionsE lf (r0 :: grp') = Except.ok ((r0 :: grp').map (keyDecor lf))
      ∧ pySortDesc ((r0 :: grp').map (keyDecor lf)) = sel :: tl
      ∧ selectsLatest lf (r0 :: grp') sel.2 := by
  have hkv := keyedVersionsE_ok (r0 :: grp') lf (fun r hr => by
    obtain ⟨n, hn⟩ := hp r hr
    rw [hn]; rfl)
  have hik : IntKeyed (keyDecor lf r0 :: grp'.map (keyDecor lf)) := by
    rw [← List.map_cons]
    intro q hq
    obtain ⟨hqe, hqm⟩ := keyDecor_eq_of_mem lf _ q hq
    obtain ⟨n, hn⟩ := hp q.2 hqm
    refine ⟨n, ?_⟩
    rw [hqe]
    simp [keyDecor, hn]
  obtain ⟨pre, post, hdec, hpre, hmax⟩ :=
    scanMax_spec (grp'.map (keyDecor lf)) (keyDecor lf r0) hik
  obtain ⟨tl, htl⟩ := pySortDesc_cons (keyDecor lf r0) (grp'.map (keyDecor lf))
  set m := scanMax (keyDecor lf r0) (grp'.map (keyDecor lf)) with hmdef
  have hmem : m ∈ (r0 :: grp').map (keyDecor lf) := by
    rw [List.map_cons, hdec]
    exact List.mem_append_right _ (List.mem_cons_self _ _)
  obtain ⟨hme, hmm⟩ := keyDecor_eq_of_mem lf _ m hmem
  refine ⟨m, tl, hkv, ?_, ?_⟩
  · rw [List.map_cons]
    exact htl
  · refine ⟨pre.map Prod.snd, post.map Prod.snd, ?_, ?_, ?_⟩
    · have hsnd := congrArg (List.map Prod.snd) hdec
      simp only [List.map_append, List.map_cons] at hsnd
      have hid : (grp'.map (keyDecor lf)).map Prod.snd = grp' := by
        simp [List.map_map, Function.comp_def, keyDecor]
      rw [hid] at hsnd
      exact hsnd
    · intro r hr a b hra hrb
      obtain ⟨q, hqpre, hqe⟩ := List.mem_map.mp hr
      have hqk : q ∈ (r0 :: grp').map (keyDecor lf) := by
        rw [List.map_cons, hdec]
        exact List.mem_append_left _ hqpre
      obtain ⟨hqd, -⟩ := keyDecor_eq_of_mem lf _ q hqk
      have hvl := hpre q hqpre
      have hq1 : q.1 = Value.int a := by
        rw [show q.1 = ((alookup q.2 lf).getD Value.null) from congrArg Prod.fst hqd,
          hqe, hra]
        rfl
      have hm1 : m.1 = Value.int b := by
        rw [show m.1 = ((alookup m.2 lf).getD Value.null) from congrArg Prod.fst hme,
          hrb]
        rfl
      rw [hq1, hm1] at hvl
      simpa [valueLt] using hvl
    · intro r hr a b hsa hrb
      have hrk : keyDecor lf r ∈ (r0 :: grp').map (keyDecor lf) :=
        List.mem_map_of_mem _ hr
      rw [List.map_cons] at hrk
      have hvl := hmax (keyDecor lf r) hrk
      have hm1 : m.1 = Value.int a := by
        rw [show m.1 = ((alookup m.2 lf).getD Value.null) from congrArg Prod.fst hme,
          hsa]
        rfl
      have hr1 : (keyDecor lf r).1 = Value.int b := by simp [keyDecor, hrb]
      rw [hm1, hr1] at hvl
      simp only [valueLt, decide_eq_false_iff_not] at hvl
      omega

theorem pointerLoop_spec : ∀ (groups : List (List Value × List Row)) (lf : String),
    (∀ g ∈ groups, g.2 ≠ []) →
    (∀ g ∈ groups, ∀ r ∈ g.2, ∃ n : Int, alookup r lf = some (Value.int n)) →
    ∃ out, pointerLoop lf groups = Except.ok out
      ∧ out.length = groups.length
      ∧ ∀ (j : Nat) (hj : j < groups.length) (hjo : j < out.length),
          selectsLatest lf (groups.get ⟨j, hj⟩).2 (out.get ⟨j, hjo⟩) := by
  intro groups
  induction groups with
  | nil =>
    intro lf _ _
    exact ⟨[], rfl, rfl, fun j hj _ => absurd hj (by simp)⟩
  | cons g rest ih =>
    intro lf hne hp
    obtain ⟨k, grp⟩ := g
    have hgne : grp ≠ [] := hne (k, grp) (List.mem_cons_self _ _)
    cases grp with
    | nil => exact absurd rfl hgne
    | cons r0 grp' =>
      obtain ⟨sel, tl, hkv, hsort, hsel⟩ := group_select lf r0 grp'
        (fun r hr => hp (k, r0 :: grp') (List.mem_cons_self _ _) r hr)
      obtain ⟨out', hout', hlen', hsel'⟩ := ih lf
        (fun g2 hg => hne g2 (List.mem_cons_of_mem _ hg))
        (fun g2 hg => hp g2 (List.mem_cons_of_mem _ hg))
      refine ⟨sel.2 :: out', ?_, ?_, ?_⟩
      · rw [show pointerLoop lf ((k, r0 :: grp') :: rest)
            = (match keyedVersionsE lf (r0 :: grp') with
               | Except.error e => Except.error e
               | Except.ok keyed =>
                 match pySortDesc keyed with
                 | [] => Except.error "IndexError: list index out of range"
                 | top :: _ =>
                   match pointerLoop lf rest with
                   | Except.error e => Except.error e
                   | Except.ok tail => Except.ok (top.2 :: tail)) from rfl,
          hkv]
        simp only [hsort, hout']
      · simp [hlen']
      · intro j hj hjo
        cases j with
        | zero => simpa using hsel
        | succ j' =>
          have hj' : j' < rest.length := by simpa using hj
          have hjo' : j' < out'.length := by simpa using hjo
          have hs := hsel' j' hj' hjo'
          simpa using hs

/-- C4: for every pointer-kind schema (no literal records) whose source table
has been generated, whose key fields are present in every source row and whose
`latest_field` is an integer in every source row, `generate_rows` succeeds
without touching the state, and its output is described by the grouping of the
source rows: the groups are keyed by the distinct key tuples in first-seen
order, each group holds exactly the source rows with that key tuple in source
order, there is exactly one output row per group, and the j-th output row is a
member of the j-th group that attains the maximum `latest_field` value of the
group with every earlier group member strictly smaller (ties break to the
earliest source row). -/
theorem C4_pointer_latest_selection
    (rs : RunState) (schema : Schema) (out : List Row) (rs' : RunState)
    (stn : String) (ks : List String) (lf : String) (src : List Row)
    (hrec : schema.records = none) (hty : schema.type = "pointer")
    (hst : schema.source_table = some stn) (hk : schema.key = some ks)
    (hlf : schema.latest_field = some lf)
    (hdata : alookup rs.data stn = some src)
    (hkeys : ∀ r ∈ src, ∀ kf ∈ ks, (alookup r kf).isSome)
    (hlat : ∀ r ∈ src, ∃ n : Int, alookup r lf = some (Value.int n))
    (h : generate_rows rs schema = Except.ok (out, rs')) :
    rs' = rs
    ∧ ∃ groups : List (List Value × List Row),
        groups.map Prod.fst = src.foldl (fun l r => addUniq l (rowKeyOf ks r)) []
        ∧ (groups.map Prod.fst).Nodup
        ∧ (∀ kg ∈ groups, kg.2 = src.filter (fun r => rowKeyOf ks r = kg.1))
        ∧ out.length = groups.length
        ∧ ∀ (j : Nat) (hj : j < groups.length) (hjo : j < out.length),
            selectsLatest lf (groups.get ⟨j, hj⟩).2 (out.get ⟨j, hjo⟩) := by
  obtain ⟨groups, hg, hpl, hrs⟩ := generate_rows_pointer_inv rs schema out rs'
    stn ks lf src hrec hty hst hk hlf hdata h
  rw [groupByKeysE_eq_fold ks src [] hkeys] at hg
  injection hg with hgeq
  subst hgeq
  have hinv : GroupInv ks src
      (src.foldl (fun a r => addToGroup a (rowKeyOf ks r) r) []) := by
    have hgi := groupFold_inv ks src [] [] (groupInv_nil ks)
    simpa using hgi
  obtain ⟨i1, i2, i3, -, i5⟩ := hinv
  have hlat2 : ∀ g ∈ src.foldl (fun a r => addToGroup a (rowKeyOf ks r) r) [],
      ∀ r ∈ g.2, ∃ n : Int, alookup r lf = some (Value.int n) := by
    intro g hg2 r hr
    rw [i3 g hg2] at hr
    exact hlat r (List.mem_of_mem_filter hr)
  obtain ⟨out2, hout2, hlen, hsel⟩ := pointerLoop_spec
    (src.foldl (fun a r => addToGroup a (rowKeyOf ks r) r) []) lf i5 hlat2
  rw [hpl] at hout2
  injection hout2 with hoeq
  subst hoeq
  exact ⟨hrs, _, i2, i1, i3, hlen, hsel⟩

/-- Source rows for the pointer witness: three rows share key "a" with
`latest_field` values 1, 3, 3 (the first 3 must win) and one row has key "b". -/
def c4r1 : Row := [("k", Value.str "a"), ("v", Value.int 1), ("x", Value.int 10)]

def c4r2 : Row := [("k", Value.str "a"), ("v", Value.int 3), ("x", Value.int 20)]

def c4r3 : Row := [("k", Value.str "b"), ("v", Value.int 2), ("x", Value.int 30)]

def c4r4 : Row := [("k", Value.str "a"), ("v", Value.int 3), ("x", Value.int 40)]

def c4Src : List Row := [c4r1, c4r2, c4r3, c4r4]

/-- A pointer schema over source table `s4`, key `["k"]`, latest field `v`. -/
def c4Schema : Schema :=
  { table_name := "p4", type := "pointer", source_table := some "s4",
    key := some ["k"], latest_field := some "v" }

/-- A run state whose store already holds the generated source table. -/
def c4State : RunState := { baseState with data := [("s4", c4Src)] }

set_option maxHeartbeats 1000000 in
/-- Witness: on the concrete four-row source the pointer branch emits one row
per key in first-seen order, picking the earliest maximum within each group. -/
theorem C4_pointer_latest_selection_witness :
    c4Schema.records = none
    ∧ c4Schema.type = "pointer"
    ∧ alookup c4State.data "s4" = some c4Src
    ∧ (∀ r ∈ c4Src, ∀ kf ∈ ["k"], (alookup r kf).isSome)
    ∧ (∀ r ∈ c4Src, ∃ n : Int, alookup r "v" = some (Value.int n))
    ∧ generate_rows c4State c4Schema = Except.ok ([c4r2, c4r3], c4State)
    ∧ (c4State = c4State
       ∧ ∃ groups : List (List Value × List Row),
          groups.map Prod.fst
            = c4Src.foldl (fun l r => addUniq l (rowKeyOf ["k"] r)) []
          ∧ (groups.map Prod.fst).Nodup
          ∧ (∀ kg ∈ groups, kg.2 = c4Src.filter (fun r => rowKeyOf ["k"] r = kg.1))
          ∧ ([c4r2, c4r3] : List Row).length = groups.length
          ∧ ∀ (j : Nat) (hj : j < groups.length)
              (hjo : j < ([c4r2, c4r3] : List Row).length),
              selectsLatest "v" (groups.get ⟨j, hj⟩).2
                (([c4r2, c4r3] : List Row).get ⟨j, hjo⟩)) := by
  have hkeys : ∀ r ∈ c4Src, ∀ kf ∈ ["k"], (alookup r kf).isSome := by decide
  have hlat : ∀ r ∈ c4Src, ∃ n : Int, alookup r "v" = some (Value.int n) := by
    intro r hr
    simp only [c4Src] at hr
    fin_cases hr
    · exact ⟨1, rfl⟩
    · exact ⟨3, rfl⟩
    · exact ⟨2, rfl⟩
    · exact ⟨3, rfl⟩
  refine ⟨rfl, rfl, rfl, hkeys, hlat, rfl, ?_⟩
  exact C4_pointer_latest_selection c4State c4Schema [c4r2, c4r3] c4State
    "s4" ["k"] "v" c4Src rfl rfl rfl rfl rfl rfl hkeys hlat rfl

theorem mem_addUniq {α : Type} [DecidableEq α] (l : List α) (x y : α) :
    y ∈ addUniq l x ↔ y ∈ l ∨ y = x := by
  by_cases h : x ∈ l
  · rw [addUniq, if_pos h]
    constructor
    · exact Or.inl
    · rintro (hy | hy)
      · exact hy
      · rw [hy]; exact h
  · rw [addUniq, if_neg h]
    simp

theorem mem_foldl_addUniq {α : Type} [DecidableEq α] :
    ∀ (l acc : List α) (y : α),
      y ∈ l.foldl addUniq acc ↔ y ∈ acc ∨ y ∈ l := by
  intro l
  induction l with
  | nil => intro acc y; simp
  | cons x rest ih =>
    intro acc y
    rw [List.foldl_cons, ih, mem_addUniq]
    constructor
    · rintro ((hy | hy) | hy)
      · exact Or.inl hy
      · rw [hy]; exact Or.inr (List.mem_cons_self _ _)
      · exact Or.inr (List.mem_cons_of_mem _ hy)
    · rintro (hy | hy)
      · exact Or.inl (Or.inl hy)
      · rcases List.mem_cons.mp hy with he | hy2
        · exact Or.inl (Or.inr he)
        · exact Or.inr hy2

/-- The topological-order property of an emitted schema sequence: every
dependency name of a schema occurs among the table names emitted strictly
before it. -/
def TopoOk (out : List Schema) : Prop :=
  ∀ pre s post, out = pre ++ s :: post →
    ∀ ds, collectDepsE s = Except.ok ds →
      ∀ d ∈ ds, d ∈ pre.map Schema.table_name

theorem topoOk_nil : TopoOk [] := by
  intro pre s post hdec ds hds d hd
  have hlen := congrArg List.length hdec
  rw [List.length_nil, List.length_append, List.length_cons] at hlen
  omega

theorem topoOk_snoc (out : List Schema) (s : Schema)
    (h1 : TopoOk out)
    (h2 : ∀ ds, collectDepsE s = Except.ok ds →
      ∀ d ∈ ds, d ∈ out.map Schema.table_name) :
    TopoOk (out ++ [s]) := by
  intro pre x post hdec ds hds d hd
  rcases List.eq_nil_or_concat post with hpost | ⟨post', y, hpost⟩
  · subst hpost
    obtain ⟨hpre, hx⟩ := List.append_inj' hdec rfl
    have hxs : x = s := by
      injection hx with h1
      exact h1.symm
    rw [hxs] at hds
    rw [← hpre]
    exact h2 ds hds d hd
  · subst hpost
    have hdec2 : out ++ [s] = (pre ++ x :: post') ++ [y] := by
      rw [hdec]; simp
    obtain ⟨hout, -⟩ := List.append_inj' hdec2 rfl
    exact h1 pre x post' hout ds hds d hd

/-- Invariant of the graph-building loop of `resolve_dependencies` over the
already processed prefix of the schema list (whose table names are assumed
duplicate-free): the name index holds exactly the processed schemas in order,
and the graph maps each processed name to a list holding exactly its
collected dependency names. -/
def BuildInv (processed : List Schema) (g : List (String × List String))
    (n2s : List (String × Schema)) : Prop :=
  akeys n2s = processed.map Schema.table_name
  ∧ (∀ s ∈ processed, alookup n2s s.table_name = some s)
  ∧ (∀ n, n ∉ processed.map Schema.table_name →
      alookup n2s n = none ∧ alookup g n = none)
  ∧ (∀ s ∈ processed, ∀ ds, collectDepsE s = Except.ok ds →
      ∀ d, d ∈ (alookup g s.table_name).getD [] ↔ d ∈ ds)

theorem buildInv_nil : BuildInv [] [] [] :=
  ⟨rfl, fun s hs => absurd hs (List.not_mem_nil s),
    fun _ _ => ⟨rfl, rfl⟩, fun s hs => absurd hs (List.not_mem_nil s)⟩

theorem buildInv_step (processed : List Schema) (g : List (String × List String))
    (n2s : List (String × Schema)) (s : Schema) (ds : List String)
    (hinv : BuildInv processed g n2s)
    (hds : collectDepsE s = Except.ok ds)
    (hfresh : s.table_name ∉ processed.map Schema.table_name) :
    BuildInv (processed ++ [s]) (graphAddDeps g s.table_name ds)
      (aupsert n2s s.table_name s) := by
  obtain ⟨i1, i2, i3, i4⟩ := hinv
  have hgn : alookup g s.table_name = none := (i3 s.table_name hfresh).2
  have hg' : graphAddDeps g s.table_name ds
      = aupsert g s.table_name (ds.foldl addUniq []) := by
    rw [graphAddDeps, hgn]
    rfl
  refine ⟨?_, ?_, ?_, ?_⟩
  · rw [akeys_aupsert_not_mem n2s s.table_name s (by rw [i1]; exact hfresh), i1]
    simp
  · intro x hx
    rcases List.mem_append.mp hx with hx1 | hx2
    · have hne : s.table_name ≠ x.table_name := by
        intro he
        exact hfresh (he ▸ List.mem_map_of_mem Schema.table_name hx1)
      rw [alookup_aupsert_ne n2s s.table_name x.table_name s hne]
      exact i2 x hx1
    · have hxe : x = s := by simpa using hx2
      rw [hxe]
      exact alookup_aupsert_self n2s s.table_name s
  · intro n hn
    have hn1 : n ∉ processed.map Schema.table_name := by
      intro hm
      exact hn (by rw [List.map_append]; exact List.mem_append_left _ hm)
    have hne : s.table_name ≠ n := by
      intro he
      exact hn (by rw [List.map_append, ← he]; simp)
    constructor
    · rw [alookup_aupsert_ne n2s s.table_name n s hne]
      exact (i3 n hn1).1
    · rw [hg', alookup_aupsert_ne g s.table_name n _ hne]
      exact (i3 n hn1).2
  · intro x hx ds2 hds2 d
    rcases List.mem_append.mp hx with hx1 | hx2
    · have hne : s.table_name ≠ x.table_name := by
        intro he
        exact hfresh (he ▸ List.mem_map_of_mem Schema.table_name hx1)
      rw [hg', alookup_aupsert_ne g s.table_name x.table_name _ hne]
      exact i4 x hx1 ds2 hds2 d
    · have hxe : x = s := by simpa using hx2
      rw [hxe] at hds2 ⊢
      rw [hds] at hds2
      injection hds2 with hde
      rw [hg', alookup_aupsert_self g s.table_name (ds.foldl addUniq [])]
      simp only [Option.getD_some]
      rw [← hde, mem_foldl_addUniq]
      simp

theorem buildResolve_inv : ∀ (todo processed : List Schema)
    (g : List (String × List String)) (n2s : List (String × Schema)),
    (∀ s ∈ todo, ∃ ds, collectDepsE s = Except.ok ds) →
    (processed.map Schema.table_name ++ todo.map Schema.table_name).Nodup →
    BuildInv processed g n2s →
    ∃ g2 n2s2, buildResolve todo (g, n2s) = Except.ok (g2, n2s2)
      ∧ BuildInv (processed ++ todo) g2 n2s2 := by
  intro todo
  induction todo with
  | nil =>
    intro processed g n2s _ _ hinv
    exact ⟨g, n2s, rfl, by simpa using hinv⟩
  | cons s rest ih =>
    intro processed g n2s hok hnd hinv
    obtain ⟨ds, hds⟩ := hok s (List.mem_cons_self _ _)
    have hfresh : s.table_name ∉ processed.map Schema.table_name := by
      intro hm
      rw [List.nodup_append] at hnd
      exact hnd.2.2 hm (by simp)
    have hstep := buildInv_step processed g n2s s ds hinv hds hfresh
    have hnd2 : ((processed ++ [s]).map Schema.table_name
        ++ rest.map Schema.table_name).Nodup := by
      have : (processed ++ [s]).map Schema.table_name ++ rest.map Schema.table_name
          = processed.map Schema.table_name
            ++ (s :: rest).map Schema.table_name := by simp
      rw [this]
      exact hnd
    obtain ⟨g2, n2s2, hrun, hinv2⟩ := ih (processed ++ [s])
      (graphAddDeps g s.table_name ds) (aupsert n2s s.table_name s)
      (fun x hx => hok x (List.mem_cons_of_mem _ hx)) hnd2 hstep
    refine ⟨g2, n2s2, ?_, ?_⟩
    · rw [show buildResolve (s :: rest) (g, n2s)
          = (match collectDepsE s with
             | Except.error e => Except.error e
             | Except.ok ds2 =>
               buildResolve rest
                 (graphAddDeps g s.table_name ds2,
                  aupsert n2s s.table_name s)) from rfl,
        hds]
      exact hrun
    · have : processed ++ [s] ++ rest = processed ++ s :: rest := by simp
      rw [← this]
      exact hinv2

theorem length_filter_mono {α : Type} (l : List α) (p q : α → Bool)
    (hpq : ∀ x ∈ l, p x = true → q x = true) :
    (l.filter p).length ≤ (l.filter q).length := by
  induction l with
  | nil => simp
  | cons x rest ih =>
    have ih2 := ih (fun y hy hpy => hpq y (List.mem_cons_of_mem _ hy) hpy)
    rw [List.filter_cons, List.filter_cons]
    by_cases hp : p x = true
    · rw [if_pos hp, if_pos (hpq x (List.mem_cons_self _ _) hp)]
      simpa using ih2
    · rw [if_neg hp]
      by_cases hq : q x = true
      · rw [if_pos hq]
        simp only [List.length_cons]
        omega
      · rw [if_neg hq]
        exact ih2

theorem length_filter_lt {α : Type} (l : List α) (p q : α → Bool)
    (hpq : ∀ x ∈ l, p x = true → q x = true) (d : α) (hd : d ∈ l)
    (hqd : q d = true) (hpd : p d = false) :
    (l.filter p).length < (l.filter q).length := by
  induction l with
  | nil => exact absurd hd (List.not_mem_nil d)
  | cons x rest ih =>
    have hmono := length_filter_mono rest p q
      (fun y hy hpy => hpq y (List.mem_cons_of_mem _ hy) hpy)
    rw [List.filter_cons, List.filter_cons]
    rcases List.mem_cons.mp hd with he | hd2
    · rw [← he, if_pos hqd, if_neg (by simp [hpd])]
      simp only [List.length_cons]
      omega
    · have ih2 := ih (fun y hy hpy => hpq y (List.mem_cons_of_mem _ hy) hpy) hd2
      by_cases hp : p x = true
      · rw [if_pos hp, if_pos (hpq x (List.mem_cons_self _ _) hp)]
        simpa using ih2
      · rw [if_neg hp]
        by_cases hq : q x = true
        · rw [if_pos hq]
          simp only [List.length_cons]
          omega
        · rw [if_neg hq]
          exact ih2

/-- Collapse an arbitrary rank certificate to one bounded by the number of
table names: the rank of `n` becomes the number of distinct names of strictly
smaller original rank. -/
def nrank (names : List String) (rank : String → Nat) (n : String) : Nat :=
  (names.dedup.filter (fun m => rank m < rank n)).length

theorem nrank_lt (names : List String) (rank : String → Nat) (d n : String)
    (hd : d ∈ names) (hdn : rank d < rank n) :
    nrank names rank d < nrank names rank n := by
  apply length_filter_lt
  · intro x hx hpx
    simp only [decide_eq_true_eq] at hpx ⊢
    omega
  · exact List.mem_dedup.mpr hd
  · simp only [decide_eq_true_eq]
    exact hdn
  · simp

theorem nrank_le (names : List String) (rank : String → Nat) (n : String) :
    nrank names rank n ≤ names.length :=
  le_trans (List.length_filter_le _ _) (List.Sublist.length_le (List.dedup_sublist names))

/-- What the graph-building phase guarantees for every known table name: the
index resolves it to its schema, whose dependency collection succeeds, and the
graph entry holds exactly those dependency names. -/
def GraphOk (schemas : List Schema) (g : List (String × List String))
    (n2s : List (String × Schema)) : Prop :=
  ∀ n ∈ schemas.map Schema.table_name,
    ∃ s ds, s ∈ schemas ∧ s.table_name = n ∧ alookup n2s n = some s
      ∧ collectDepsE s = Except.ok ds
      ∧ (∀ d, d ∈ (alookup g n).getD [] ↔ d ∈ ds)

/-- Invariant of the depth-first traversal state: the emitted schemas carry
exactly the completed names in completion order, are drawn from the input
set, no name completes twice, and the emitted prefix is topologically
ordered. -/
def ResolveInv (schemas : List Schema) (st : VisitState) : Prop :=
  st.sorted.map Schema.table_name = st.visitedL
  ∧ (∀ x ∈ st.sorted, x ∈ schemas)
  ∧ st.visitedL.Nodup
  ∧ (∀ n ∈ st.visitedL, n ∈ schemas.map Schema.table_name)
  ∧ TopoOk st.sorted

theorem foldVisit_sound (vf : VisitState → String → VRes)
    (P : VisitState → Prop) (bound : String → Nat) :
    ∀ (ds : List String),
      (∀ d ∈ ds, ∀ st, P st → ∃ st', vf st d = VRes.ok st'
         ∧ P st' ∧ d ∈ st'.visitedL
         ∧ ∃ newl news, st'.visitedL = st.visitedL ++ newl
             ∧ st'.sorted = st.sorted ++ news
             ∧ ∀ x ∈ newl, bound x ≤ bound d) →
      ∀ st, P st →
      ∃ st', foldVisit vf (VRes.ok st) ds = VRes.ok st'
        ∧ P st'
        ∧ (∀ d ∈ ds, d ∈ st'.visitedL)
        ∧ ∃ newl news, st'.visitedL = st.visitedL ++ newl
            ∧ st'.sorted = st.sorted ++ news
            ∧ (∀ x ∈ newl, ∃ d ∈ ds, bound x ≤ bound d) := by
  intro ds
  induction ds with
  | nil =>
    intro _ st hP
    exact ⟨st, rfl, hP, fun d hd => absurd hd (List.not_mem_nil d),
      [], [], by simp, by simp, fun x hx => absurd hx (List.not_mem_nil x)⟩
  | cons d ds' ih =>
    intro hvf st hP
    obtain ⟨st1, hst1, hP1, hd1, newl1, news1, hv1, hs1, hb1⟩ :=
      hvf d (List.mem_cons_self _ _) st hP
    obtain ⟨st2, hst2, hP2, hall2, newl2, news2, hv2, hs2, hb2⟩ :=
      ih (fun d2 hd2 => hvf d2 (List.mem_cons_of_mem _ hd2)) st1 hP1
    refine ⟨st2, ?_, hP2, ?_, newl1 ++ newl2, news1 ++ news2, ?_, ?_, ?_⟩
    · rw [show foldVisit vf (VRes.ok st) (d :: ds')
          = foldVisit vf (vf st d) ds' from rfl, hst1]
      exact hst2
    · intro d2 hd2
      rcases List.mem_cons.mp hd2 with he | hd3
      · rw [he, hv2]
        exact List.mem_append_left _ hd1
      · exact hall2 d2 hd3
    · rw [hv2, hv1, List.append_assoc]
    · rw [hs2, hs1, List.append_assoc]
    · intro x hx
      rcases List.mem_append.mp hx with hx1 | hx2
      · exact ⟨d, List.mem_cons_self _ _, hb1 x hx1⟩
      · obtain ⟨d2, hd2, hb⟩ := hb2 x hx2
        exact ⟨d2, List.mem_cons_of_mem _ hd2, hb⟩

theorem visit_sound (schemas : List Schema) (g : List (String × List String))
    (n2s : List (String × Schema)) (rank : String → Nat)
    (hgo : GraphOk schemas g n2s)
    (hclosed : ∀ s ∈ schemas, ∀ ds, collectDepsE s = Except.ok ds →
        ∀ d ∈ ds, d ∈ schemas.map Schema.table_name)
    (hrank : ∀ s ∈ schemas, ∀ ds, collectDepsE s = Except.ok ds →
        ∀ d ∈ ds, rank d < rank s.table_name) :
    ∀ fuel n st, n ∈ schemas.map Schema.table_name → rank n < fuel →
      ResolveInv schemas st →
      ∃ st', visit g n2s fuel st n = VRes.ok st'
        ∧ ResolveInv schemas st'
        ∧ n ∈ st'.visitedL
        ∧ ∃ newl news, st'.visitedL = st.visitedL ++ newl
            ∧ st'.sorted = st.sorted ++ news
            ∧ ∀ x ∈ newl, rank x ≤ rank n := by
  intro fuel
  induction fuel with
  | zero =>
    intro n st hn hf
    exact absurd hf (Nat.not_lt_zero _)
  | succ f ihf =>
    intro n st hn hf hinv
    have hunf : visit g n2s (f + 1) st n
        = (if st.visitedL.contains n = true then VRes.ok st
           else
             match foldVisit (fun st' d => visit g n2s f st' d) (VRes.ok st)
                 ((alookup g n).getD []) with
             | VRes.ok st2 =>
               match alookup n2s n with
               | some sch => VRes.ok ⟨st2.visitedL ++ [n], st2.sorted ++ [sch]⟩
               | none => VRes.fail "KeyError: unknown table"
             | r => r) := rfl
    by_cases hvis : st.visitedL.contains n = true
    · refine ⟨st, ?_, hinv, List.mem_of_elem_eq_true hvis, [], [], by simp, by simp,
        fun x hx => absurd hx (List.not_mem_nil x)⟩
      rw [hunf, if_pos hvis]
    · obtain ⟨s, ds, hsm, hsn, hlook, hds, hiff⟩ := hgo n hn
      have hvf : ∀ d ∈ (alookup g n).getD [], ∀ st3, ResolveInv schemas st3 →
          ∃ st', visit g n2s f st3 d = VRes.ok st'
            ∧ ResolveInv schemas st' ∧ d ∈ st'.visitedL
            ∧ ∃ newl news, st'.visitedL = st3.visitedL ++ newl
                ∧ st'.sorted = st3.sorted ++ news
                ∧ ∀ x ∈ newl, rank x ≤ rank d := by
        intro d hd st3 hinv3
        have hdds : d ∈ ds := (hiff d).mp hd
        have hdn : d ∈ schemas.map Schema.table_name := hclosed s hsm ds hds d hdds
        have hdr : rank d < rank n := hsn ▸ hrank s hsm ds hds d hdds
        exact ihf d st3 hdn (by omega) hinv3
      obtain ⟨st2, hst2, hinv2, halld, newl, news, hv2, hs2, hb2⟩ :=
        foldVisit_sound (fun st' d => visit g n2s f st' d) (ResolveInv schemas)
          rank ((alookup g n).getD []) hvf st hinv
      obtain ⟨i1, i2, i3, i4, i5⟩ := hinv2
      have hnnotin : n ∉ st2.visitedL := by
        rw [hv2]
        intro hm
        rcases List.mem_append.mp hm with hm1 | hm2
        · exact (by simpa using hvis : n ∉ st.visitedL) hm1
        · obtain ⟨d, hd, hble⟩ := hb2 n hm2
          have hdr : rank d < rank n :=
            hsn ▸ hrank s hsm ds hds d ((hiff d).mp hd)
          omega
      refine ⟨⟨st2.visitedL ++ [n], st2.sorted ++ [s]⟩, ?_, ?_, ?_, newl ++ [n],
        news ++ [s], ?_, ?_, ?_⟩
      · rw [hunf, if_neg hvis]
        simp only [hst2, hlook]
      · refine ⟨?_, ?_, ?_, ?_, ?_⟩
        · show (st2.sorted ++ [s]).map Schema.table_name = st2.visitedL ++ [n]
          rw [List.map_append, i1]
          simp [hsn]
        · intro x hx
          rcases List.mem_append.mp hx with hx1 | hx2
          · exact i2 x hx1
          · rw [show x = s from by simpa using hx2]
            exact hsm
        · show (st2.visitedL ++ [n]).Nodup
          rw [List.nodup_append]
          refine ⟨i3, List.nodup_singleton n, ?_⟩
          intro y hy hy2
          rw [show y = n from by simpa using hy2] at hy
          exact hnnotin hy
        · intro m hm
          rcases List.mem_append.mp hm with hm1 | hm2
          · exact i4 m hm1
          · rw [show m = n from by simpa using hm2]
            exact hn
        · refine topoOk_snoc st2.sorted s i5 ?_
          intro ds2 hds2 d hd
          rw [hds] at hds2
          injection hds2 with hde
          rw [i1]
          exact halld d ((hiff d).mpr (hde ▸ hd))
      · show n ∈ st2.visitedL ++ [n]
        simp
      · show st2.visitedL ++ [n] = st.visitedL ++ (newl ++ [n])
        rw [hv2, List.append_assoc]
      · show st2.sorted ++ [s] = st.sorted ++ (news ++ [s])
        rw [hs2, List.append_assoc]
      · intro x hx
        rcases List.mem_append.mp hx with hx1 | hx2
        · obtain ⟨d, hd, hble⟩ := hb2 x hx1
          have hdr : rank d < rank n :=
            hsn ▸ hrank s hsm ds hds d ((hiff d).mp hd)
          omega
        · rw [show x = n from by simpa using hx2]

theorem topLoop_sound (schemas : List Schema) (g : List (String × List String))
    (n2s : List (String × Schema)) (rank : String → Nat) (F : Nat)
    (hgo : GraphOk schemas g n2s)
    (hclosed : ∀ s ∈ schemas, ∀ ds, collectDepsE s = Except.ok ds →
        ∀ d ∈ ds, d ∈ schemas.map Schema.table_name)
    (hrank : ∀ s ∈ schemas, ∀ ds, collectDepsE s = Except.ok ds →
        ∀ d ∈ ds, rank d < rank s.table_name)
    (hF : ∀ n ∈ schemas.map Schema.table_name, rank n < F) :
    ∀ (ns : List String) (st : VisitState),
      (∀ n ∈ ns, n ∈ schemas.map Schema.table_name) →
      ResolveInv schemas st →
      ∃ st', ns.foldl (fun acc n =>
            match acc with
            | VRes.ok st3 => visit g n2s F st3 n
            | r => r) (VRes.ok st) = VRes.ok st'
        ∧ ResolveInv schemas st'
        ∧ (∀ n ∈ ns, n ∈ st'.visitedL)
        ∧ ∃ newl, st'.visitedL = st.visitedL ++ newl := by
  intro ns
  induction ns with
  | nil =>
    intro st _ hinv
    exact ⟨st, rfl, hinv, fun n hn => absurd hn (List.not_mem_nil n), [], by simp⟩
  | cons n ns' ih =>
    intro st hns hinv
    have hn : n ∈ schemas.map Schema.table_name := hns n (List.mem_cons_self _ _)
    obtain ⟨st1, hst1, hinv1, hnv1, newl1, -, hv1, -, -⟩ :=
      visit_sound schemas g n2s rank hgo hclosed hrank F n st hn (hF n hn) hinv
    obtain ⟨st', hst', hinv', hall', newl2, hv2⟩ :=
      ih st1 (fun m hm => hns m (List.mem_cons_of_mem _ hm)) hinv1
    refine ⟨st', ?_, hinv', ?_, newl1 ++ newl2, ?_⟩
    · rw [List.foldl_cons]
      have hred : (match VRes.ok st with
          | VRes.ok st3 => visit g n2s F st3 n
          | r => r) = visit g n2s F st n := rfl
      rw [hred, hst1]
      exact hst'
    · intro m hm
      rcases List.mem_cons.mp hm with he | hm2
      · rw [he, hv2]
        exact List.mem_append_left _ hnv1
      · exact hall' m hm2
    · rw [hv2, hv1, List.append_assoc]

/-- C1: for every schema list with duplicate-free table names whose
dependency collection succeeds on every schema, whose dependency names all
refer to tables of the set, and whose dependency graph is acyclic (witnessed
by a rank function that strictly decreases along every edge),
`resolve_dependencies` succeeds and returns a permutation of the input in
which every dependency of a schema appears strictly before it. -/
theorem C1_topological_order (schemas : List Schema) (rank : String → Nat)
    (hnd : (schemas.map Schema.table_name).Nodup)
    (hok : ∀ s ∈ schemas, ∃ ds, collectDepsE s = Except.ok ds)
    (hclosed : ∀ s ∈ schemas, ∀ ds, collectDepsE s = Except.ok ds →
        ∀ d ∈ ds, d ∈ schemas.map Schema.table_name)
    (hrank : ∀ s ∈ schemas, ∀ ds, collectDepsE s = Except.ok ds →
        ∀ d ∈ ds, rank d < rank s.table_name) :
    ∃ out, resolve_dependencies schemas = Except.ok out
      ∧ out.Perm schemas
      ∧ ∀ pre s post, out = pre ++ s :: post →
          ∀ ds, collectDepsE s = Except.ok ds →
            ∀ d ∈ ds, d ∈ pre.map Schema.table_name := by
  obtain ⟨g, n2s, hbr, hinvB⟩ := buildResolve_inv schemas [] [] [] hok
    (by simpa using hnd) buildInv_nil
  rw [List.nil_append] at hinvB
  obtain ⟨i1, i2, i3, i4⟩ := hinvB
  have hgo : GraphOk schemas g n2s := by
    intro n hn
    obtain ⟨s, hsm, hsn⟩ := List.mem_map.mp hn
    obtain ⟨ds, hds⟩ := hok s hsm
    exact ⟨s, ds, hsm, hsn, hsn ▸ i2 s hsm, hds, fun d => hsn ▸ i4 s hsm ds hds d⟩
  have hrank2 : ∀ s ∈ schemas, ∀ ds, collectDepsE s = Except.ok ds →
      ∀ d ∈ ds, nrank (schemas.map Schema.table_name) rank d
        < nrank (schemas.map Schema.table_name) rank s.table_name := by
    intro s hsm ds hds d hd
    exact nrank_lt (schemas.map Schema.table_name) rank d s.table_name
      (hclosed s hsm ds hds d hd) (hrank s hsm ds hds d hd)
  have hF : ∀ n ∈ schemas.map Schema.table_name,
      nrank (schemas.map Schema.table_name) rank n < schemas.length + 1 := by
    intro n _
    have h1 := nrank_le (schemas.map Schema.table_name) rank n
    rw [List.length_map] at h1
    omega
  have hinv0 : ResolveInv schemas ⟨[], []⟩ :=
    ⟨rfl, fun x hx => absurd hx (List.not_mem_nil x), List.nodup_nil,
      fun n hn => absurd hn (List.not_mem_nil n), topoOk_nil⟩
  obtain ⟨st', hfold, hinv', hall', -, -⟩ :=
    topLoop_sound schemas g n2s (nrank (schemas.map Schema.table_name) rank)
      (schemas.length + 1) hgo hclosed hrank2 hF (akeys n2s) ⟨[], []⟩
      (fun n hn => i1 ▸ hn) hinv0
  obtain ⟨j1, j2, j3, j4, j5⟩ := hinv'
  refine ⟨st'.sorted, ?_, ?_, j5⟩
  · rw [show resolve_dependencies schemas
        = (match buildResolve schemas ([], []) with
           | Except.error e => Except.error e
           | Except.ok (g2, n2s2) =>
             match (akeys n2s2).foldl
                 (fun acc n =>
                   match acc with
                   | VRes.ok st => visit g2 n2s2 (schemas.length + 1) st n
                   | r => r)
                 (VRes.ok ⟨[], []⟩) with
             | VRes.ok st => Except.ok st.sorted
             | VRes.fail e => Except.error e
             | VRes.fuelout =>
               Except.error "RecursionError: maximum recursion depth exceeded")
        from rfl, hbr]
    simp only [hfold]
  · have hsortnd : st'.sorted.Nodup := by
      apply List.Nodup.of_map Schema.table_name
      rw [j1]
      exact j3
    have hschnd : schemas.Nodup := List.Nodup.of_map Schema.table_name hnd
    rw [List.perm_ext_iff_of_nodup hsortnd hschnd]
    intro a
    constructor
    · exact j2 a
    · intro ha
      have han : a.table_name ∈ st'.visitedL :=
        hall' a.table_name (i1 ▸ List.mem_map_of_mem Schema.table_name ha)
      rw [← j1] at han
      obtain ⟨x, hx, hxe⟩ := List.mem_map.mp han
      have hxa : x = a :=
        List.inj_on_of_nodup_map hnd (j2 x hx) ha hxe
      rw [← hxa]
      exact hx

/-- A dependency-free master table `a`. -/
def c1A : Schema :=
  { table_name := "a", type := "master", count := some 1,
    fields := some [("id", { type := some "uuid" })] }

/-- A master table `b` holding a `ref` field into `a`. -/
def c1B : Schema :=
  { table_name := "b", type := "master", count := some 1,
    fields := some [("a_id",
      { type := some "ref", table := some "a", field := some "id" })] }

/-- A pointer table `c` over source table `b`. -/
def c1C : Schema :=
  { table_name := "c", type := "pointer", source_table := some "b",
    key := some ["a_id"], latest_field := some "a_id" }

/-- The witness input deliberately lists dependents before their
dependencies. -/
def c1Schemas : List Schema := [c1B, c1C, c1A]

/-- A rank certificate for the acyclic graph a ← b ← c. -/
def c1Rank : String → Nat := fun n => if n = "a" then 0 else if n = "b" then 1 else 2

set_option maxHeartbeats 1000000 in
/-- Witness: the three-table input with table `a` listed last satisfies every
hypothesis, and resolution reorders it into a topological order. -/
theorem C1_topological_order_witness :
    (c1Schemas.map Schema.table_name).Nodup
    ∧ (∀ s ∈ c1Schemas, ∃ ds, collectDepsE s = Except.ok ds)
    ∧ (∀ s ∈ c1Schemas, ∀ ds, collectDepsE s = Except.ok ds →
        ∀ d ∈ ds, d ∈ c1Schemas.map Schema.table_name)
    ∧ (∀ s ∈ c1Schemas, ∀ ds, collectDepsE s = Except.ok ds →
        ∀ d ∈ ds, c1Rank d < c1Rank s.table_name)
    ∧ (∃ out, resolve_dependencies c1Schemas = Except.ok out
        ∧ out.Perm c1Schemas
        ∧ ∀ pre s post, out = pre ++ s :: post →
            ∀ ds, collectDepsE s = Except.ok ds →
              ∀ d ∈ ds, d ∈ pre.map Schema.table_name) := by
  have hnd : (c1Schemas.map Schema.table_name).Nodup := by decide
  have hok : ∀ s ∈ c1Schemas, ∃ ds, collectDepsE s = Except.ok ds := by
    intro s hs
    simp only [c1Schemas] at hs
    fin_cases hs
    · exact ⟨["a"], rfl⟩
    · exact ⟨["b"], rfl⟩
    · exact ⟨[], rfl⟩
  have hclosed : ∀ s ∈ c1Schemas, ∀ ds, collectDepsE s = Except.ok ds →
      ∀ d ∈ ds, d ∈ c1Schemas.map Schema.table_name := by
    intro s hs
    simp only [c1Schemas] at hs
    fin_cases hs
    · intro ds hds d hd
      rw [show collectDepsE c1B = Except.ok ["a"] from rfl] at hds
      injection hds with h
      rw [← h] at hd
      rw [show d = "a" from by simpa using hd]
      decide
    · intro ds hds d hd
      rw [show collectDepsE c1C = Except.ok ["b"] from rfl] at hds
      injection hds with h
      rw [← h] at hd
      rw [show d = "b" from by simpa using hd]
      decide
    · intro ds hds d hd
      rw [show collectDepsE c1A = Except.ok ([] : List String) from rfl] at hds
      injection hds with h
      rw [← h] at hd
      exact absurd hd (List.not_mem_nil d)
  have hrank : ∀ s ∈ c1Schemas, ∀ ds, collectDepsE s = Except.ok ds →
      ∀ d ∈ ds, c1Rank d < c1Rank s.table_name := by
    intro s hs
    simp only [c1Schemas] at hs
    fin_cases hs
    · intro ds hds d hd
      rw [show collectDepsE c1B = Except.ok ["a"] from rfl] at hds
      injection hds with h
      rw [← h] at hd
      rw [show d = "a" from by simpa using hd]
      decide
    · intro ds hds d hd
      rw [show collectDepsE c1C = Except.ok ["b"] from rfl] at hds
      injection hds with h
      rw [← h] at hd
      rw [show d = "b" from by simpa using hd]
      decide
    · intro ds hds d hd
      rw [show collectDepsE c1A = Except.ok ([] : List String) from rfl] at hds
      injection hds with h
      rw [← h] at hd
      exact absurd hd (List.not_mem_nil d)
  exact ⟨hnd, hok, hclosed, hrank,
    C1_topological_order c1Schemas c1Rank hnd hok hclosed hrank⟩

end DG
